import Mathlib

/-!
Verification development for the Kaleidoscope frontend
(src/lexer.cpp, src/parser.cpp, src/ast.cpp, src/runloop.cpp).

The C++ sources are shallowly embedded: the lexer's character scanning,
the recursive-descent parser, the IR-lowering pass of the AST nodes and
the REPL driver loop become pure Lean functions over explicit state
records.  Machine state that the C++ keeps in globals (the lookahead
character, the current token, the builder, the module, the symbol table,
the stderr stream) is threaded explicitly.
-/

namespace Kaleidoscope

/-! ### Lexer embedding (src/lexer.cpp)

The lexer reads characters through `getchar` keeping one character of
lookahead in the static `LastChar` (initially a space).  We model the
remaining standard input as a `List Char` and `LastChar` as an
`Option Char`, `none` standing for C's `EOF`. -/

/-- Tokens produced by `gettok`.  A number token keeps the raw scanned
string (the C code passes it to `strtod` and keeps whatever that
returns, a documented quirk irrelevant to the lexer's control flow). -/
inductive LToken where
  | eof
  | kwDef
  | kwExternDecl
  | kwIf
  | kwThen
  | kwElse
  | ident (s : String)
  | number (raw : String)
  | punct (c : Char)
deriving DecidableEq, Repr

/-- State of the lexer: the `LastChar` lookahead (`none` = `EOF`) and the
characters not yet handed out by `getchar`. -/
structure LexState where
  lastChar : Option Char
  input : List Char
deriving DecidableEq, Repr

/-- `LastChar` starts as `' '` in the C source. -/
def initLex (input : List Char) : LexState :=
  ⟨some ' ', input⟩

/-- One `LastChar = getchar()` step. -/
def readChar (ls : LexState) : LexState :=
  match ls.input with
  | [] => ⟨none, []⟩
  | c :: rest => ⟨some c, rest⟩

/-- C's `isspace` in the default locale (ASCII). -/
def isSpaceC (c : Char) : Bool :=
  c = ' ' ∨ c = '\t' ∨ c = '\n' ∨ c = '\x0b' ∨ c = '\x0c' ∨ c = '\r'

/-- C's `isalpha` in the default locale (ASCII). -/
def isAlphaC (c : Char) : Bool :=
  ('a' ≤ c ∧ c ≤ 'z') ∨ ('A' ≤ c ∧ c ≤ 'Z')

/-- C's `isdigit`. -/
def isDigitC (c : Char) : Bool :=
  '0' ≤ c ∧ c ≤ '9'

/-- C's `isalnum` in the default locale (ASCII). -/
def isAlnumC (c : Char) : Bool :=
  isAlphaC c || isDigitC c

/-- Termination measure for the lexer: characters still to be read, plus
one if the lookahead has not yet hit `EOF`. -/
def lexMeasure (ls : LexState) : Nat :=
  ls.input.length + (if ls.lastChar.isSome then 1 else 0)

/-- The loop `while (isspace(LastChar)) LastChar = getchar();` once the
initial lookahead was found to be a space: keep reading characters. -/
def skipSpacesAux : List Char → LexState
  | [] => ⟨none, []⟩
  | c :: rest => if isSpaceC c then skipSpacesAux rest else ⟨some c, rest⟩

/-- `while (isspace(LastChar)) LastChar = getchar();` -/
def skipSpaces (ls : LexState) : LexState :=
  match ls.lastChar with
  | some c => if isSpaceC c then skipSpacesAux ls.input else ls
  | none => ls

/-- The scanning loop shared by identifiers
(`while (isalnum((LastChar = getchar()))) IdentifierStr += LastChar;`)
and numbers: read a character, and as long as it satisfies `p`, append
it to the accumulator and continue; the first offending character is
left in the lookahead. -/
def scanRun (p : Char → Bool) : List Char → String → String × LexState
  | [], acc => (acc, ⟨none, []⟩)
  | c :: rest, acc =>
      if p c then scanRun p rest (acc.push c) else (acc, ⟨some c, rest⟩)

/-- `do { LastChar = getchar(); } while (LastChar != '\n' && LastChar != EOF);` -/
def skipComment : List Char → LexState
  | [] => ⟨none, []⟩
  | c :: rest => if c = '\n' then ⟨some c, rest⟩ else skipComment rest

theorem lexMeasure_skipSpacesAux_le (l : List Char) :
    lexMeasure (skipSpacesAux l) ≤ l.length := by
  induction l with
  | nil => simp [skipSpacesAux, lexMeasure]
  | cons c rest ih =>
      by_cases h : isSpaceC c
      · simp only [skipSpacesAux, h, if_true]
        exact le_trans ih (by simp)
      · simp [skipSpacesAux, h, lexMeasure]

theorem lexMeasure_skipSpaces_le (ls : LexState) :
    lexMeasure (skipSpaces ls) ≤ lexMeasure ls := by
  cases hlc : ls.lastChar with
  | none => simp [skipSpaces, hlc]
  | some c =>
      by_cases h : isSpaceC c
      · simp only [skipSpaces, hlc, h, if_true]
        calc lexMeasure (skipSpacesAux ls.input) ≤ ls.input.length :=
              lexMeasure_skipSpacesAux_le ls.input
          _ ≤ lexMeasure ls := by simp [lexMeasure]
      · simp [skipSpaces, hlc, h]

theorem lexMeasure_scanRun_le (p : Char → Bool) (l : List Char) (acc : String) :
    lexMeasure (scanRun p l acc).2 ≤ l.length := by
  induction l generalizing acc with
  | nil => simp [scanRun, lexMeasure]
  | cons c rest ih =>
      by_cases h : p c
      · simp only [scanRun, h, if_true]
        exact le_trans (ih (acc.push c)) (by simp)
      · simp [scanRun, h, lexMeasure]

theorem lexMeasure_skipComment_le (l : List Char) :
    lexMeasure (skipComment l) ≤ l.length := by
  induction l with
  | nil => simp [skipComment, lexMeasure]
  | cons c rest ih =>
      by_cases h : c = '\n'
      · simp [skipComment, h, lexMeasure]
      · simp only [skipComment, h, if_false]
        exact le_trans ih (by simp)

/-- Keyword filter at the end of the identifier branch of `gettok`. -/
def keywordOrIdent (s : String) : LToken :=
  if s = "def" then .kwDef
  else if s = "extern" then .kwExternDecl
  else if s = "if" then .kwIf
  else if s = "then" then .kwThen
  else if s = "else" then .kwElse
  else .ident s

mutual

/-- `gettok` from src/lexer.cpp. -/
def gettok (ls : LexState) : LToken × LexState :=
  gettokAfterWS (skipSpaces ls)
termination_by (lexMeasure ls, 1)
decreasing_by
  exact Prod.Lex.right' _ (lexMeasure_skipSpaces_le ls) (by omega)

/-- The body of `gettok` after the whitespace-skipping loop, dispatching
on the (post-whitespace) lookahead character. -/
def gettokAfterWS : LexState → LToken × LexState
  | ⟨none, input⟩ => (.eof, ⟨none, input⟩)
  | ⟨some c, input⟩ =>
      if isAlphaC c then
        -- identifier / keyword branch
        let r := scanRun isAlnumC input (String.mk [c])
        (keywordOrIdent r.1, r.2)
      else if isDigitC c || c = '.' then
        -- number branch (do-while: the first character is kept, then scan)
        let r := scanRun (fun c' => isDigitC c' || c' = '.') input (String.mk [c])
        (.number r.1, r.2)
      else if c = '#' then
        -- comment branch: skip to end of line (or EOF) and restart
        gettok (skipComment input)
      else
        -- single punctuation character
        (.punct c, readChar ⟨some c, input⟩)
termination_by ls => (lexMeasure ls, 0)
decreasing_by
  apply Prod.Lex.left
  calc lexMeasure (skipComment input) ≤ input.length :=
        lexMeasure_skipComment_le input
    _ < lexMeasure ⟨some c, input⟩ := by simp [lexMeasure]

end

theorem gettokAfterWS_measure_lt :
    ∀ n (ls : LexState), lexMeasure ls ≤ n → (gettokAfterWS ls).1 ≠ .eof →
      lexMeasure (gettokAfterWS ls).2 < lexMeasure ls := by
  intro n
  induction n with
  | zero =>
      intro ls hle hne
      cases ls with
      | mk lc input =>
        cases lc with
        | none => rw [gettokAfterWS] at hne ; simp at hne
        | some c => simp [lexMeasure] at hle
  | succ n ih =>
      intro ls hle hne
      cases ls with
      | mk lc input =>
        cases lc with
        | none => rw [gettokAfterWS] at hne ; simp at hne
        | some c =>
            rw [gettokAfterWS] at hne ⊢
            by_cases ha : isAlphaC c
            · simp only [ha, if_true]
              calc lexMeasure (scanRun isAlnumC input (String.mk [c])).2
                  ≤ input.length := lexMeasure_scanRun_le _ input _
                _ < lexMeasure ⟨some c, input⟩ := by simp [lexMeasure]
            · by_cases hd : isDigitC c || c = '.'
              · simp only [ha, hd, if_true, if_false, Bool.false_eq_true]
                calc lexMeasure (scanRun _ input (String.mk [c])).2
                    ≤ input.length := lexMeasure_scanRun_le _ input _
                  _ < lexMeasure ⟨some c, input⟩ := by simp [lexMeasure]
              · by_cases hh : c = '#'
                · simp only [ha, hd, hh, if_true, if_false, Bool.false_eq_true] at hne ⊢
                  rw [gettok] at hne ⊢
                  have hm : lexMeasure (skipSpaces (skipComment input)) ≤ n := by
                    have h1 := lexMeasure_skipSpaces_le (skipComment input)
                    have h2 := lexMeasure_skipComment_le input
                    have h3 : lexMeasure ⟨some c, input⟩ = input.length + 1 := by
                      simp [lexMeasure]
                    omega
                  calc lexMeasure (gettokAfterWS (skipSpaces (skipComment input))).2
                      < lexMeasure (skipSpaces (skipComment input)) :=
                        ih _ hm hne
                    _ ≤ lexMeasure (skipComment input) :=
                        lexMeasure_skipSpaces_le _
                    _ ≤ input.length := lexMeasure_skipComment_le input
                    _ < lexMeasure ⟨some c, input⟩ := by simp [lexMeasure]
                · simp only [ha, hd, hh, if_false, Bool.false_eq_true]
                  cases input with
                  | nil => simp [readChar, lexMeasure]
                  | cons d rest => simp [readChar, lexMeasure]

theorem gettok_measure_lt (ls : LexState) (h : (gettok ls).1 ≠ .eof) :
    lexMeasure (gettok ls).2 < lexMeasure ls := by
  rw [gettok] at h ⊢
  calc lexMeasure (gettokAfterWS (skipSpaces ls)).2
      < lexMeasure (skipSpaces ls) :=
        gettokAfterWS_measure_lt (lexMeasure (skipSpaces ls)) _ le_rfl h
    _ ≤ lexMeasure ls := lexMeasure_skipSpaces_le ls

/-- Repeatedly call `gettok` until it reports end-of-input; the
terminating `eof` token is kept as the last element of the stream. -/
def tokenize (ls : LexState) : List LToken :=
  let r := gettok ls
  if h : r.1 = .eof then [.eof]
  else r.1 :: tokenize r.2
termination_by lexMeasure ls
decreasing_by
  exact gettok_measure_lt ls h

theorem tokenize_ends_in_eof :
    ∀ n (ls : LexState), lexMeasure ls ≤ n →
      ∃ l : List LToken, tokenize ls = l ++ [.eof] ∧ .eof ∉ l := by
  intro n
  induction n with
  | zero =>
      intro ls hle
      rw [tokenize]
      by_cases h : (gettok ls).1 = .eof
      · exact ⟨[], by simp [h], by simp⟩
      · exact absurd (lt_of_lt_of_le (gettok_measure_lt ls h) hle) (by omega)
  | succ n ih =>
      intro ls hle
      rw [tokenize]
      by_cases h : (gettok ls).1 = .eof
      · exact ⟨[], by simp [h], by simp⟩
      · have hm : lexMeasure (gettok ls).2 ≤ n := by
          have := gettok_measure_lt ls h
          omega
        obtain ⟨l, hl, hmem⟩ := ih (gettok ls).2 hm
        refine ⟨(gettok ls).1 :: l, by simp [h, hl], ?_⟩
        simp only [List.mem_cons, not_or]
        exact ⟨fun he => h he.symm, hmem⟩

/-! ### AST data model (src/ast.cpp) and parser embedding (src/parser.cpp)

`CurTok` in the C++ is a process-global `int`: either one of the negative
`Token` enum values or the ASCII code of a punctuation character.  We
model the parser's view of the input as the list of tokens not yet
consumed, whose head plays the role of `CurTok`; an empty list means the
lexer keeps answering `tok_eof`.  Number tokens carry the `NumVal`
payload, of an arbitrary type `α` (the parser never inspects it; the
lowering sections instantiate `α` with `ℚ`, standing for the `double`
payload). -/

/-- Parser-level tokens. -/
inductive Tok (α : Type) where
  | eof
  | kwDef
  | kwExternDecl
  | kwIf
  | kwThen
  | kwElse
  | ident (s : String)
  | num (v : α)
  | punct (c : Char)
deriving DecidableEq, Repr

/-- The `ExprNode` class hierarchy of src/ast.cpp as a sum. -/
inductive Expr (α : Type) where
  /-- `NumberExprNode` -/
  | num (v : α)
  /-- `IdentifierExprNode` -/
  | ident (s : String)
  /-- `BinaryExprNode` -/
  | binary (op : Char) (lhs rhs : Expr α)
  /-- `CallExprNode` -/
  | call (callee : String) (args : List (Expr α))
  /-- `IfNode` -/
  | ifExpr (cond pass fail : Expr α)

/-- `PrototypeNode`: a function name and its parameter names. -/
structure Prototype where
  name : String
  params : List String
deriving DecidableEq, Repr

/-- `FunctionNode`: a prototype plus a body expression. -/
structure FunctionAST (α : Type) where
  proto : Prototype
  body : Expr α

/-- Parser state: the unconsumed tokens (head = `CurTok`) plus the
stderr lines written so far. -/
structure PState (α : Type) where
  toks : List (Tok α)
  log : List String
deriving DecidableEq, Repr

variable {α : Type} [DecidableEq α]

/-- The current lookahead token `CurTok`. -/
def curTok (ps : PState α) : Tok α :=
  ps.toks.headD .eof

/-- `getNextToken()`. -/
def advance (ps : PState α) : PState α :=
  ⟨ps.toks.tail, ps.log⟩

/-- `fprintf(stderr, "Error: %s\n", Str)`. -/
def logErr (msg : String) (ps : PState α) : PState α :=
  ⟨ps.toks, ps.log ++ ["Error: " ++ msg]⟩

/-- `ExprError` (and the `PrototypeError` / `FunctionError` wrappers
that delegate to it): print the diagnostic, return the null sentinel. -/
def exprError {β : Type} (msg : String) (ps : PState α) : Option β × PState α :=
  (none, logErr msg ps)

/-- The `BinOpPrecedence` map as set up by `InitParser`; `std::map`
default-constructs `0` for an absent key. -/
def binOpPrecedence (c : Char) : Int :=
  if c = '<' then 10
  else if c = '+' then 20
  else if c = '-' then 20
  else if c = '*' then 40
  else if c = '/' then 40
  else 0

/-- `GetTokenPrecedence()`: `-1` unless `CurTok` is an ASCII character
with a positive precedence entry.  The negative `Token` enum values
fail the `isascii` test. -/
def getTokenPrecedence (t : Tok α) : Int :=
  match t with
  | .punct c =>
      if 128 ≤ c.toNat then -1
      else if binOpPrecedence c ≤ 0 then -1
      else binOpPrecedence c
  | _ => -1

/-!
The five expression-parsing functions are mutually recursive; the C++
recursion consumes tokens, and we make it structural over an explicit
fuel argument.  Result `none` means the fuel ran out (never the case for
the fuel the driver supplies, as proved below); `some (none, ps)` is the
C++ `NULL` sentinel return with state `ps`; `some (some v, ps)` is a
successful parse.
-/

mutual

/-- `ParsePrimary`. -/
def parsePrimary : Nat → PState α → Option (Option (Expr α) × PState α)
  | 0, _ => none
  | fuel+1, ps =>
      match curTok ps with
      | .ident s => parseIdentifierExpr s fuel (advance ps)
      | .num v => some (some (.num v), advance ps)
      | .punct c =>
          if c = '(' then
            -- ParseParenExpr
            match parseExpression fuel (advance ps) with
            | none => none
            | some (none, ps1) => some (none, ps1)
            | some (some e, ps1) =>
                if curTok ps1 = .punct ')' then some (some e, advance ps1)
                else some (exprError "Expected ')'" ps1)
          else some (exprError "Unknown token, expecting expr" ps)
      | _ => some (exprError "Unknown token, expecting expr" ps)

/-- `ParseIdentifierExpr`, entered after the identifier itself has been
consumed (`IdentifierName` is the argument). -/
def parseIdentifierExpr : String → Nat → PState α → Option (Option (Expr α) × PState α)
  | _, 0, _ => none
  | name, fuel+1, ps =>
      if curTok ps ≠ .punct '(' then some (some (.ident name), ps)
      else
        let ps1 := advance ps
        if curTok ps1 = .punct ')' then
          -- empty argument list: the loop body is skipped
          some (some (.call name []), advance ps1)
        else
          match parseCallArgs fuel ps1 [] with
          | none => none
          | some (none, ps2) => some (none, ps2)
          | some (some args, ps2) => some (some (.call name args), advance ps2)

/-- The `while (true)` argument loop inside `ParseIdentifierExpr`;
returns with the closing `')'` still in `CurTok`. -/
def parseCallArgs : Nat → PState α → List (Expr α) → Option (Option (List (Expr α)) × PState α)
  | 0, _, _ => none
  | fuel+1, ps, acc =>
      match parseExpression fuel ps with
      | none => none
      | some (none, ps1) => some (none, ps1)
      | some (some arg, ps1) =>
          let acc1 := acc ++ [arg]
          if curTok ps1 = .punct ')' then some (some acc1, ps1)
          else if curTok ps1 ≠ .punct ',' then
            some (exprError "Expected ',' or ')' in argument list" ps1)
          else parseCallArgs fuel (advance ps1) acc1

/-- `ParseBinOpRHS`. -/
def parseBinOpRHS : Nat → Int → Expr α → PState α → Option (Option (Expr α) × PState α)
  | 0, _, _, _ => none
  | fuel+1, exprPrec, lhs, ps =>
      let tokPrec := getTokenPrecedence (curTok ps)
      if tokPrec < exprPrec then some (some lhs, ps)
      else
        match curTok ps with
        | .punct c =>
            match parsePrimary fuel (advance ps) with
            | none => none
            | some (none, ps1) => some (none, ps1)
            | some (some rhs, ps1) =>
                let nextPrec := getTokenPrecedence (curTok ps1)
                if tokPrec < nextPrec then
                  match parseBinOpRHS fuel (tokPrec + 1) rhs ps1 with
                  | none => none
                  | some (none, ps2) => some (none, ps2)
                  | some (some rhs', ps2) =>
                      parseBinOpRHS fuel exprPrec (.binary c lhs rhs') ps2
                else
                  parseBinOpRHS fuel exprPrec (.binary c lhs rhs) ps1
        | _ =>
            -- Unreachable from the real entry points: a non-punctuation
            -- CurTok has precedence -1 < exprPrec (which is always ≥ 0).
            some (some lhs, ps)

/-- `ParseExpression`. -/
def parseExpression : Nat → PState α → Option (Option (Expr α) × PState α)
  | 0, _ => none
  | fuel+1, ps =>
      match parsePrimary fuel ps with
      | none => none
      | some (none, ps1) => some (none, ps1)
      | some (some lhs, ps1) => parseBinOpRHS fuel 0 lhs ps1

end

/-- `while (getNextToken() == tok_identifier) Params.push_back(IdentifierStr);` -/
def protoParams : List (Tok α) → List String × List (Tok α)
  | .ident s :: rest =>
      let r := protoParams rest
      (s :: r.1, r.2)
  | other => ([], other)

/-- `ParsePrototype`.  Not recursive through the expression grammar, so
it needs no fuel. -/
def parsePrototype (ps : PState α) : Option Prototype × PState α :=
  match curTok ps with
  | .ident name =>
      let ps1 := advance ps
      if curTok ps1 ≠ .punct '(' then exprError "Expected '(' in prototype" ps1
      else
        -- the first getNextToken() of the loop consumes the '('
        let pr := protoParams (advance ps1).toks
        let ps2 : PState α := ⟨pr.2, ps1.log⟩
        if curTok ps2 ≠ .punct ')' then exprError "Expected ')' in prototype" ps2
        else (some ⟨name, pr.1⟩, advance ps2)
  | _ => exprError "Expected function name in prototype" ps

/-- `ParseFunction`: consume `def`, parse a prototype, parse the body. -/
def parseFunction : Nat → PState α → Option (Option (FunctionAST α) × PState α)
  | 0, _ => none
  | fuel+1, ps =>
      let ps0 := advance ps  -- getNextToken(); // 'def'
      match parsePrototype ps0 with
      | (none, ps1) => some (none, ps1)
      | (some proto, ps1) =>
          match parseExpression fuel ps1 with
          | none => none
          | some (none, ps2) => some (none, ps2)
          | some (some body, ps2) => some (some ⟨proto, body⟩, ps2)

/-- `ParseExtern`: consume `extern`, parse a prototype. -/
def parseExternDecl (ps : PState α) : Option Prototype × PState α :=
  parsePrototype (advance ps)

/-- `ParseTopLevelExpr`: wrap a free expression in an anonymous
function. -/
def parseTopLevelExpr : Nat → PState α → Option (Option (FunctionAST α) × PState α)
  | 0, _ => none
  | fuel+1, ps =>
      match parseExpression fuel ps with
      | none => none
      | some (none, ps1) => some (none, ps1)
      | some (some e, ps1) => some (some ⟨⟨"", []⟩, e⟩, ps1)

/-- The five binary operators installed by `InitParser`. -/
def ops5 : List Char := ['<', '+', '-', '*', '/']

/-- C1 [code_bug]: contrary to the spec ("Keyword `if` → `parse_if`"),
`ParsePrimary` has no case for `tok_if` — there is no `ParseIf` in
src/parser.cpp at all, although the lexer produces `tok_if` and
`IfNode::Codegen` is fully implemented — so an input whose current token
is `if` falls into the default branch: the parser prints "Error: Unknown
token, expecting expr", consumes nothing and returns the null
sentinel. -/
theorem C1_if_keyword_falls_into_unknown_token_branch :
    parsePrimary 9
      (⟨[Tok.kwIf, .num (1 : ℚ), .kwThen, .num 2, .kwElse, .num 3], []⟩ : PState ℚ) =
      some (none,
        ⟨[Tok.kwIf, .num 1, .kwThen, .num 2, .kwElse, .num 3],
         ["Error: Unknown token, expecting expr"]⟩) := by
  rfl

/-- C2: for primaries `a b c` and table operators `op1 op2`, the
expression parser groups `a op1 b op2 c` to the right exactly when
`prec(op1) < prec(op2)` and to the left otherwise; in particular
`a - b - c` parses as `(a - b) - c`. -/
theorem C2_precedence_and_associativity (a b c : ℚ) (op1 op2 : Char)
    (h1 : op1 ∈ ops5) (h2 : op2 ∈ ops5) :
    (parseExpression 12
        (⟨[.num a, .punct op1, .num b, .punct op2, .num c], []⟩ : PState ℚ) =
      some (some (
        if binOpPrecedence op1 < binOpPrecedence op2 then
          .binary op1 (.num a) (.binary op2 (.num b) (.num c))
        else
          .binary op2 (.binary op1 (.num a) (.num b)) (.num c)), ⟨[], []⟩))
    ∧ parseExpression 12
        (⟨[.num a, .punct '-', .num b, .punct '-', .num c], []⟩ : PState ℚ) =
      some (some (.binary '-' (.binary '-' (.num a) (.num b)) (.num c)), ⟨[], []⟩) := by
  refine ⟨?_, ?_⟩
  · fin_cases h1 <;> fin_cases h2 <;> rfl
  · rfl

/-- Witness for C2 at `1 * 2 + 3`: the hypotheses hold for `*` and `+`,
and the tree is the left grouping `(1 * 2) + 3` since `prec(*) ≥ prec(+)`. -/
theorem C2_witness :
    parseExpression 12
        (⟨[.num (1 : ℚ), .punct '*', .num 2, .punct '+', .num 3], []⟩ : PState ℚ) =
      some (some (.binary '+' (.binary '*' (.num 1) (.num 2)) (.num 3)), ⟨[], []⟩) := by
  have h := C2_precedence_and_associativity 1 2 3 '*' '+'
    (by decide) (by decide)
  simpa using h.1

/-! ### Lowering embedding (src/ast.cpp)

The lowerer issues instructions through the global `Builder` into
functions attached to `TheModule`.  We model LLVM values as identifiers
(constants, function arguments and instruction results), basic blocks as
records holding their emitted instructions, and the whole backend state
— the builder's insertion point, the module, the symbol table, stderr
and the optimizer invocations — as one record `CG` threaded through the
lowering functions.  The payload type of expressions is `ℚ`, standing
for `double`. -/

/-- The only LLVM type the program mentions: `Type::getDoubleTy`. -/
inductive Ty where
  | double
deriving DecidableEq, Repr

/-- An LLVM `Value*`. -/
inductive Value where
  /-- `ConstantFP::get(getGlobalContext(), APFloat(x))` -/
  | constFP (x : ℚ)
  /-- argument `idx` of function `fn` -/
  | arg (fn idx : Nat)
  /-- the result of the emitted instruction with the given id -/
  | instr (id : Nat)
deriving DecidableEq, Repr

/-- The instructions the lowerer can emit through the builder. -/
inductive Instr where
  | fadd (l r : Value)
  | fsub (l r : Value)
  | fmul (l r : Value)
  | fdiv (l r : Value)
  | fcmpULT (l r : Value)
  | fcmpONE (l r : Value)
  | uiToFP (v : Value) (t : Ty)
  | callFn (callee : Nat) (args : List Value)
  | condBr (cond : Value) (bThen bElse : Nat)
  | br (target : Nat)
  | ret (v : Value)
  | phi (t : Ty) (incoming : List (Value × Nat))
deriving DecidableEq, Repr

/-- A basic block: its id, its name and the instructions emitted into it
(paired with their result value ids). -/
structure BasicBlock where
  bid : Nat
  bname : String
  instrs : List (Nat × Instr)
deriving DecidableEq, Repr

/-- An LLVM `Function*` attached to the module. -/
structure Func where
  fid : Nat
  name : String
  arity : Nat
  blocks : List BasicBlock
deriving DecidableEq, Repr

/-- The process-global lowering state: fresh-id counters, the builder's
insertion point (`curFn`, `curBB`), `TheModule`, basic blocks created
but not yet attached to a function, the `Symbols` map, the stderr lines
and the list of functions the optimization pipeline was run on. -/
structure CG where
  nextVal : Nat
  nextBB : Nat
  nextFn : Nat
  curFn : Nat
  curBB : Nat
  module : List Func
  detached : List BasicBlock
  symbols : List (String × Value)
  errors : List String
  optimized : List Nat
deriving DecidableEq, Repr

/-- The state right after `RunLoop` builds the module. -/
def initCG : CG :=
  ⟨0, 0, 0, 0, 0, [], [], [], [], []⟩

/-- `ErrorV`: print `Error: <msg>` to stderr (the null return is at the
call sites). -/
def errorV (msg : String) (s : CG) : CG :=
  { s with errors := s.errors ++ ["Error: " ++ msg] }

/-- `TheModule->getFunction(Name)`. -/
def findFnByName (name : String) (m : List Func) : Option Func :=
  m.find? (fun f => f.name = name)

/-- `Fn->eraseFromParent()`. -/
def eraseFn (fid : Nat) (s : CG) : CG :=
  { s with module := s.module.filter (fun f => f.fid ≠ fid) }

/-- Rewrite one function of the module in place. -/
def mapFn (fid : Nat) (g : Func → Func) (m : List Func) : List Func :=
  m.map (fun f => if f.fid = fid then g f else f)

/-- Emit one instruction through the builder into the current insertion
block; the result is a fresh value id. -/
def emit (i : Instr) (s : CG) : Value × CG :=
  (Value.instr s.nextVal,
   { s with
       nextVal := s.nextVal + 1,
       module := mapFn s.curFn (fun f =>
         { f with blocks := f.blocks.map (fun b =>
             if b.bid = s.curBB then { b with instrs := b.instrs ++ [(s.nextVal, i)] }
             else b) }) s.module })

/-- `BasicBlock::Create(getGlobalContext(), name)`: a fresh block not
attached to any function. -/
def createDetachedBB (bname : String) (s : CG) : Nat × CG :=
  (s.nextBB,
   { s with nextBB := s.nextBB + 1, detached := s.detached ++ [⟨s.nextBB, bname, []⟩] })

/-- `Fn->getBasicBlockList().push_back(BB)` for the current function. -/
def pushBackBB (bid : Nat) (s : CG) : CG :=
  match s.detached.find? (fun b => b.bid = bid) with
  | none => s
  | some b =>
      { s with
          detached := s.detached.filter (fun b' => b'.bid ≠ bid),
          module := mapFn s.curFn (fun f => { f with blocks := f.blocks ++ [b] }) s.module }

/-- `Builder.SetInsertPoint(BB)`. -/
def setInsertPoint (bid : Nat) (s : CG) : CG :=
  { s with curBB := bid }

/-- `std::map` insertion: replace the binding if the key exists. -/
def symSet : List (String × Value) → String → Value → List (String × Value)
  | [], k, v => [(k, v)]
  | (k', v') :: rest, k, v =>
      if k' = k then (k, v) :: rest else (k', v') :: symSet rest k v

/-- `Symbols[Name]` on the reading side: `none` models the
default-constructed null. -/
def symLookup : List (String × Value) → String → Option Value
  | [], _ => none
  | (k, v) :: rest, n => if k = n then some v else symLookup rest n

/-- The parameter-naming loop at the end of `PrototypeNode::Codegen`:
`Symbols[Params[Idx]] = AI` for each parameter in order. -/
def bindParams (fid : Nat) (params : List String) (s : CG) : CG :=
  { s with symbols := params.enum.foldl (fun sy p => symSet sy p.2 (.arg fid p.1)) s.symbols }

/-- The instructions of block `bid` of function `fid`. -/
def blockInstrs (fid bid : Nat) (m : List Func) : List (Nat × Instr) :=
  match m.find? (fun f => f.fid = fid) with
  | none => []
  | some f =>
      match f.blocks.find? (fun b => b.bid = bid) with
      | none => []
      | some b => b.instrs

/-- `IfNode::Codegen`, first straight-line section after the condition
value is available: emit the `fcmp one` against `0.0`, create the three
blocks, emit the conditional branch, append `then` to the function and
position the builder there.  Returns `(ThenBB, ElseBB, DoneBB, state)`. -/
def ifAfterCond (cv : Value) (s1 : CG) : Nat × Nat × Nat × CG :=
  let r2 := emit (.fcmpONE cv (.constFP 0)) s1
  let r3 := createDetachedBB "then" r2.2
  let r4 := createDetachedBB "else" r3.2
  let r5 := createDetachedBB "done" r4.2
  let r6 := emit (.condBr r2.1 r3.1 r4.1) r5.2
  (r3.1, r4.1, r5.1, setInsertPoint r3.1 (pushBackBB r3.1 r6.2))

/-- `IfNode::Codegen`, straight-line section after the then-branch value
is available: branch to `done`, record the builder's *current* block
(`ThenBB = Builder.GetInsertBlock()`), append `else` and position
there.  Returns `(recorded then-block, state)`. -/
def ifAfterThen (doneB elseB : Nat) (s8 : CG) : Nat × CG :=
  let r9 := emit (.br doneB) s8
  (r9.2.curBB, setInsertPoint elseB (pushBackBB elseB r9.2))

/-- `IfNode::Codegen`, final straight-line section after the else-branch
value is available: branch to `done`, record the builder's current block,
append `done`, position there and emit the two-edge φ-node of double
type, which is the expression's result. -/
def ifAfterElse (doneB thenBB : Nat) (tv ev : Value) (s11 : CG) : Option Value × CG :=
  let r12 := emit (.br doneB) s11
  let elseBB := r12.2.curBB
  let s13 := setInsertPoint doneB (pushBackBB doneB r12.2)
  let r14 := emit (.phi .double [(tv, thenBB), (ev, elseBB)]) s13
  (some r14.1, r14.2)

mutual

/-- `ExprNode::Codegen` (virtual dispatch over the node kinds). -/
def codegenExpr : Expr ℚ → CG → Option Value × CG
  | .num v, s =>
      -- NumberExprNode::Codegen
      (some (.constFP v), s)
  | .ident n, s =>
      -- IdentifierExprNode::Codegen
      match symLookup s.symbols n with
      | none => (none, errorV "Undefined variable" s)
      | some v => (some v, s)
  | .binary op l r, s =>
      -- BinaryExprNode::Codegen: both operands are lowered before the
      -- null check `if (!(LValue && RValue)) return NULL;`
      match codegenExpr l s with
      | (lv?, s1) =>
        match codegenExpr r s1 with
        | (rv?, s2) =>
          match lv?, rv? with
          | some lv, some rv =>
              if op = '+' then
                let r3 := emit (.fadd lv rv) s2
                (some r3.1, r3.2)
              else if op = '-' then
                let r3 := emit (.fsub lv rv) s2
                (some r3.1, r3.2)
              else if op = '*' then
                let r3 := emit (.fmul lv rv) s2
                (some r3.1, r3.2)
              else if op = '/' then
                let r3 := emit (.fdiv lv rv) s2
                (some r3.1, r3.2)
              else if op = '<' then
                let r3 := emit (.fcmpULT lv rv) s2
                let r4 := emit (.uiToFP r3.1 .double) r3.2
                (some r4.1, r4.2)
              else (none, errorV "Unspported binary operator" s2)
          | _, _ => (none, s2)
  | .call callee args, s =>
      -- CallExprNode::Codegen
      match findFnByName callee s.module with
      | none => (none, errorV "Call to undefined function" s)
      | some f =>
          if f.arity ≠ args.length then (none, errorV "Incorrect arg count" s)
          else
            match codegenArgs args s with
            | (none, s1) => (none, s1)
            | (some vals, s1) =>
                let r2 := emit (.callFn f.fid vals) s1
                (some r2.1, r2.2)
  | .ifExpr c t e, s =>
      -- IfNode::Codegen
      match codegenExpr c s with
      | (none, s1) => (none, s1)
      | (some cv, s1) =>
          match ifAfterCond cv s1 with
          | (_, elseB, doneB, s7) =>
            match codegenExpr t s7 with
            | (none, s8) => (none, s8)
            | (some tv, s8) =>
                match ifAfterThen doneB elseB s8 with
                | (thenBB, s10) =>
                  match codegenExpr e s10 with
                  | (none, s11) => (none, s11)
                  | (some ev, s11) => ifAfterElse doneB thenBB tv ev s11

/-- The argument loop of `CallExprNode::Codegen`: lower each argument
left to right, stopping at the first failure. -/
def codegenArgs : List (Expr ℚ) → CG → Option (List Value) × CG
  | [], s => (some [], s)
  | a :: rest, s =>
      match codegenExpr a s with
      | (none, s1) => (none, s1)
      | (some v, s1) =>
          match codegenArgs rest s1 with
          | (none, s2) => (none, s2)
          | (some vs, s2) => (some (v :: vs), s2)

end

/-- `PrototypeNode::Codegen`.  `Function::Create` attaches a fresh
function under the requested name; a colliding non-empty name is
uniquified by the LLVM module, which the code detects via
`Fn->getName() != Name`. -/
def codegenProto (p : Prototype) (s : CG) : Option Nat × CG :=
  let taken := p.name ≠ "" ∧ (findFnByName p.name s.module).isSome
  let fname := if taken then p.name ++ "." ++ toString s.nextFn else p.name
  let fn : Func := ⟨s.nextFn, fname, p.params.length, []⟩
  let s1 : CG := { s with nextFn := s.nextFn + 1, module := s.module ++ [fn] }
  if fname ≠ p.name then
    -- Fn->eraseFromParent(); Fn = TheModule->getFunction(Name);
    let s2 := eraseFn fn.fid s1
    match findFnByName p.name s2.module with
    | some old =>
        if old.blocks ≠ [] then
          (none, errorV "Redefinition of function not allowed" s2)
        else if old.arity ≠ p.params.length then
          (none, errorV "Redefining function with arity mismatch" s2)
        else (some old.fid, bindParams old.fid p.params s2)
    | none => (none, s2)  -- unreachable: a renamed function means the name is taken
  else (some fn.fid, bindParams fn.fid p.params s1)

/-- `BasicBlock::Create(getGlobalContext(), "entry", Fn)` followed by
`Builder.SetInsertPoint(BB)` inside `FunctionNode::Codegen`. -/
def functionEntry (fid : Nat) (s1 : CG) : CG :=
  { s1 with
      nextBB := s1.nextBB + 1,
      module := mapFn fid (fun f => { f with blocks := f.blocks ++ [⟨s1.nextBB, "entry", []⟩] }) s1.module,
      curFn := fid,
      curBB := s1.nextBB }

/-- `FunctionNode::Codegen`. -/
def codegenFunction (fn : FunctionAST ℚ) (s : CG) : Option Nat × CG :=
  -- Symbols.clear();
  let s0 : CG := { s with symbols := [] }
  match codegenProto fn.proto s0 with
  | (none, s1) => (none, s1)
  | (some fid, s1) =>
      let s2 := functionEntry fid s1
      match codegenExpr fn.body s2 with
      | (none, s3) =>
          -- Fn->eraseFromParent(); return NULL;
          (none, eraseFn fid s3)
      | (some bv, s3) =>
          -- Builder.CreateRet(BodyValue); Optimizer(TheModule).Create()->run(*Fn);
          let r4 := emit (.ret bv) s3
          (some fid, { r4.2 with optimized := r4.2.optimized ++ [fid] })

/-- C6 [corrected]: binary lowering lowers the left operand first, then
the right, propagates null if either failed, and dispatches `+`→fadd,
`-`→fsub, `*`→fmul, `/`→fdiv, `<`→fcmp-ult followed by a
uint-to-double conversion; any other operator fails — but with the
code's (misspelled) diagnostic "Unspported binary operator", not
"Unsupported binary operator" as the claim states. -/
theorem C6_binary_lowering_dispatch (op : Char) (l r : Expr ℚ) (s : CG)
    (lv? rv? : Option Value) (s1 s2 : CG)
    (hl : codegenExpr l s = (lv?, s1))
    (hr : codegenExpr r s1 = (rv?, s2)) :
    ((lv? = none ∨ rv? = none) → codegenExpr (.binary op l r) s = (none, s2))
    ∧ (∀ lv rv, lv? = some lv → rv? = some rv →
        (op = '+' → codegenExpr (.binary op l r) s =
            (some (emit (.fadd lv rv) s2).1, (emit (.fadd lv rv) s2).2))
        ∧ (op = '-' → codegenExpr (.binary op l r) s =
            (some (emit (.fsub lv rv) s2).1, (emit (.fsub lv rv) s2).2))
        ∧ (op = '*' → codegenExpr (.binary op l r) s =
            (some (emit (.fmul lv rv) s2).1, (emit (.fmul lv rv) s2).2))
        ∧ (op = '/' → codegenExpr (.binary op l r) s =
            (some (emit (.fdiv lv rv) s2).1, (emit (.fdiv lv rv) s2).2))
        ∧ (op = '<' → codegenExpr (.binary op l r) s =
            (some (emit (.uiToFP (emit (.fcmpULT lv rv) s2).1 .double) (emit (.fcmpULT lv rv) s2).2).1,
             (emit (.uiToFP (emit (.fcmpULT lv rv) s2).1 .double) (emit (.fcmpULT lv rv) s2).2).2))
        ∧ (op ∉ ops5 → codegenExpr (.binary op l r) s =
            (none, errorV "Unspported binary operator" s2))) := by
  constructor
  · intro h
    rw [codegenExpr, hl]
    dsimp only
    rw [hr]
    dsimp only
    rcases h with h | h
    · subst h ; cases rv? <;> rfl
    · subst h ; cases lv? <;> rfl
  · intro lv rv hlv hrv
    subst hlv ; subst hrv
    rw [codegenExpr, hl]
    dsimp only
    rw [hr]
    dsimp only
    refine ⟨?_, ?_, ?_, ?_, ?_, ?_⟩ <;> intro hop
    · subst hop ; rfl
    · subst hop ; rfl
    · subst hop ; rfl
    · subst hop ; rfl
    · subst hop ; rfl
    · simp only [ops5, List.mem_cons, List.mem_singleton, not_or] at hop
      obtain ⟨h1, h2, h3, h4, h5⟩ := hop
      simp only [h2, h3, h4, h5, h1, if_false, if_neg, ite_false]

/-- Counterexample for C6 as stated: lowering `1 % 2` prints the code's
misspelled diagnostic `Unspported binary operator`, not the claimed
`Unsupported binary operator`. -/
theorem C6_counterexample :
    (codegenExpr (.binary '%' (.num 1) (.num 2)) initCG).2.errors
        = ["Error: Unspported binary operator"]
    ∧ "Error: Unsupported binary operator" ∉
        (codegenExpr (.binary '%' (.num 1) (.num 2)) initCG).2.errors := by
  constructor
  · rfl
  · decide

/-- Witness for C6: `1 + 2` lowers to a floating add. -/
theorem C6_witness :
    codegenExpr (.binary '+' (.num 1) (.num 2)) initCG =
      (some (.instr 0), { initCG with nextVal := 1 }) := by
  have h := C6_binary_lowering_dispatch '+' (.num 1) (.num 2) initCG
    (some (.constFP 1)) (some (.constFP 2)) initCG initCG rfl rfl
  exact ((h.2 _ _ rfl rfl).1 rfl).trans (by rfl)

/-- C9: when the left operand of a binary expression fails to lower, the
right operand is still lowered (its state effects — instructions and
diagnostics — survive in the final state) and only then is null
returned; call-argument lowering instead stops at the first failing
argument.  The two closed conjuncts observe this: with no symbols bound,
`x + y` prints "Undefined variable" twice, while `f(x, y)` prints it
once. -/
theorem C9_rhs_lowered_after_lhs_failure :
    (∀ (op : Char) (l r : Expr ℚ) (s s1 : CG), codegenExpr l s = (none, s1) →
        codegenExpr (.binary op l r) s = (none, (codegenExpr r s1).2))
    ∧ (∀ (a : Expr ℚ) (rest : List (Expr ℚ)) (s s1 : CG), codegenExpr a s = (none, s1) →
        codegenArgs (a :: rest) s = (none, s1))
    ∧ (codegenExpr (.binary '+' (.ident "x") (.ident "y"))
          { initCG with module := [⟨0, "f", 2, []⟩] }).2.errors
        = ["Error: Undefined variable", "Error: Undefined variable"]
    ∧ (codegenExpr (.call "f" [.ident "x", .ident "y"])
          { initCG with module := [⟨0, "f", 2, []⟩] }).2.errors
        = ["Error: Undefined variable"] := by
  refine ⟨?_, ?_, rfl, rfl⟩
  · intro op l r s s1 hl
    rw [codegenExpr, hl]
  · intro a rest s s1 ha
    rw [codegenArgs, ha]

/-- Witness for C9: a failing left operand (`x` with no symbols bound)
still leads to the right operand being lowered. -/
theorem C9_witness :
    codegenExpr (.binary '+' (.ident "x") (.num 2)) initCG =
      (none, (codegenExpr (.num 2) (errorV "Undefined variable" initCG)).2) := by
  exact C9_rhs_lowered_after_lhs_failure.1 '+' (.ident "x") (.num 2) initCG
    (errorV "Undefined variable" initCG) rfl

/-! Support notions for stating what the if-lowering emits. -/

/-- The module knows a function with this id. -/
def hasFn (fid : Nat) (m : List Func) : Prop :=
  ∃ f, m.find? (fun f => f.fid = fid) = some f

/-- Function `fid` has a block `bid` attached. -/
def hasBlock (fid bid : Nat) (m : List Func) : Prop :=
  ∃ f, m.find? (fun f => f.fid = fid) = some f
    ∧ ∃ b, f.blocks.find? (fun b => b.bid = bid) = some b

/-- No block of function `fid` carries the id `bid`. -/
def fnHasNoBlock (fid bid : Nat) (m : List Func) : Prop :=
  ∀ f ∈ m, f.fid = fid → ∀ b ∈ f.blocks, b.bid ≠ bid

/-- The name of block `bid` of function `fid`. -/
def blockName (fid bid : Nat) (m : List Func) : Option String :=
  match m.find? (fun f => f.fid = fid) with
  | none => none
  | some f => (f.blocks.find? (fun b => b.bid = bid)).map (fun b => b.bname)

theorem find?_map_congr {γ : Type} (h : γ → γ) (p : γ → Bool)
    (hp : ∀ x, p (h x) = p x) (l : List γ) :
    (l.map h).find? p = (l.find? p).map h := by
  induction l with
  | nil => rfl
  | cons x rest ih =>
      by_cases hx : p x
      · rw [List.map_cons, List.find?_cons_of_pos _ (by rw [hp] ; exact hx),
            List.find?_cons_of_pos _ hx]
        rfl
      · rw [List.map_cons, List.find?_cons_of_neg _ (by rw [hp] ; simpa using hx),
            List.find?_cons_of_neg _ hx]
        exact ih

theorem find?_append_of_isSome {γ : Type} (p : γ → Bool) (l1 l2 : List γ)
    (h : (l1.find? p).isSome) :
    (l1 ++ l2).find? p = l1.find? p := by
  induction l1 with
  | nil => simp at h
  | cons x rest ih =>
      by_cases hx : p x
      · rw [List.cons_append, List.find?_cons_of_pos _ hx, List.find?_cons_of_pos _ hx]
      · rw [List.find?_cons_of_neg _ hx] at h
        rw [List.cons_append, List.find?_cons_of_neg _ hx, List.find?_cons_of_neg _ hx]
        exact ih h

theorem find?_append_of_none {γ : Type} (p : γ → Bool) (l1 l2 : List γ)
    (h : l1.find? p = none) :
    (l1 ++ l2).find? p = l2.find? p := by
  induction l1 with
  | nil => rfl
  | cons x rest ih =>
      by_cases hx : p x
      · rw [List.find?_cons_of_pos _ hx] at h ; cases h
      · rw [List.find?_cons_of_neg _ hx] at h
        rw [List.cons_append, List.find?_cons_of_neg _ hx]
        exact ih h

theorem find?_mapFn (fid' fid : Nat) (g : Func → Func) (hg : ∀ f, (g f).fid = f.fid)
    (m : List Func) (f : Func) (hf : m.find? (fun x => x.fid = fid) = some f) :
    (mapFn fid' g m).find? (fun x => x.fid = fid)
      = some (if f.fid = fid' then g f else f) := by
  rw [mapFn, find?_map_congr _ _
    (fun x => by by_cases hc : x.fid = fid' <;> simp [hc, hg]), hf]
  rfl

theorem find?_mapFn_none (fid' fid : Nat) (g : Func → Func) (hg : ∀ f, (g f).fid = f.fid)
    (m : List Func) (hf : m.find? (fun x => x.fid = fid) = none) :
    (mapFn fid' g m).find? (fun x => x.fid = fid) = none := by
  rw [mapFn, find?_map_congr _ _
    (fun x => by by_cases hc : x.fid = fid' <;> simp [hc, hg]), hf]
  rfl

theorem find?_mapBB (bid' bid : Nat) (g : BasicBlock → BasicBlock)
    (hg : ∀ b, (g b).bid = b.bid) (bs : List BasicBlock) (b : BasicBlock)
    (hb : bs.find? (fun x => x.bid = bid) = some b) :
    (bs.map (fun x => if x.bid = bid' then g x else x)).find? (fun x => x.bid = bid)
      = some (if b.bid = bid' then g b else b) := by
  rw [find?_map_congr _ _
    (fun x => by by_cases hc : x.bid = bid' <;> simp [hc, hg]), hb]
  rfl

/-- The function-rewriting map of `emit`. -/
def emitFnUpd (i : Instr) (s : CG) : Func → Func :=
  fun f => { f with blocks := f.blocks.map (fun b =>
    if b.bid = s.curBB then { b with instrs := b.instrs ++ [(s.nextVal, i)] } else b) }

theorem emit_module (i : Instr) (s : CG) :
    (emit i s).2.module = mapFn s.curFn (emitFnUpd i s) s.module := rfl

theorem blockInstrs_emit (i : Instr) (s : CG)
    (h : hasBlock s.curFn s.curBB s.module) :
    blockInstrs s.curFn s.curBB (emit i s).2.module
      = blockInstrs s.curFn s.curBB s.module ++ [(s.nextVal, i)] := by
  obtain ⟨f, hf, b, hb⟩ := h
  have hfc : f.fid = s.curFn := by simpa using List.find?_some hf
  have hbc : b.bid = s.curBB := by simpa using List.find?_some hb
  unfold blockInstrs
  rw [emit_module, find?_mapFn s.curFn s.curFn (emitFnUpd i s) (fun f => rfl) _ _ hf,
      if_pos hfc, hf]
  dsimp only [emitFnUpd]
  rw [find?_mapBB s.curBB s.curBB
        (fun b => { b with instrs := b.instrs ++ [(s.nextVal, i)] }) (fun b => rfl) _ _ hb,
      if_pos hbc, hb]

theorem hasBlock_emit (i : Instr) (s : CG) (fid bid : Nat)
    (h : hasBlock fid bid s.module) :
    hasBlock fid bid (emit i s).2.module := by
  obtain ⟨f, hf, b, hb⟩ := h
  rw [hasBlock, emit_module]
  rw [find?_mapFn s.curFn fid (emitFnUpd i s) (fun f => rfl) _ _ hf]
  by_cases hc : f.fid = s.curFn
  · rw [if_pos hc]
    refine ⟨_, rfl, ?_⟩
    dsimp only [emitFnUpd]
    rw [find?_mapBB s.curBB bid
          (fun b => { b with instrs := b.instrs ++ [(s.nextVal, i)] }) (fun b => rfl) _ _ hb]
    exact ⟨_, rfl⟩
  · rw [if_neg hc]
    exact ⟨f, rfl, b, hb⟩

theorem hasFn_emit (i : Instr) (s : CG) (fid : Nat)
    (h : hasFn fid s.module) : hasFn fid (emit i s).2.module := by
  obtain ⟨f, hf⟩ := h
  rw [hasFn, emit_module, find?_mapFn s.curFn fid (emitFnUpd i s) (fun f => rfl) _ _ hf]
  exact ⟨_, rfl⟩

theorem fnHasNoBlock_emit (i : Instr) (s : CG) (fid bid : Nat)
    (h : fnHasNoBlock fid bid s.module) :
    fnHasNoBlock fid bid (emit i s).2.module := by
  intro f hmem hfid blk hblk
  rw [emit_module, mapFn] at hmem
  obtain ⟨f0, hf0mem, hf0⟩ := List.mem_map.mp hmem
  by_cases hc : f0.fid = s.curFn
  · rw [if_pos hc] at hf0
    subst hf0
    dsimp only [emitFnUpd] at hblk hfid
    obtain ⟨b0, hb0mem, hb0⟩ := List.mem_map.mp hblk
    by_cases hcb : b0.bid = s.curBB
    · rw [if_pos hcb] at hb0
      subst hb0
      exact h f0 hf0mem hfid b0 hb0mem
    · rw [if_neg hcb] at hb0
      subst hb0
      exact h f0 hf0mem hfid b0 hb0mem
  · rw [if_neg hc] at hf0
    subst hf0
    exact h f0 hf0mem hfid blk hblk

theorem pushBackBB_projections (bid : Nat) (s : CG) :
    (pushBackBB bid s).curFn = s.curFn ∧ (pushBackBB bid s).curBB = s.curBB
    ∧ (pushBackBB bid s).nextVal = s.nextVal ∧ (pushBackBB bid s).nextBB = s.nextBB := by
  unfold pushBackBB
  rcases hd : s.detached.find? (fun b => b.bid = bid) with _ | b <;> rw [hd] <;>
    exact ⟨rfl, rfl, rfl, rfl⟩

theorem blockInstrs_pushBack_same (bid' bid : Nat) (s : CG)
    (h : hasBlock s.curFn bid s.module) :
    blockInstrs s.curFn bid (pushBackBB bid' s).module
      = blockInstrs s.curFn bid s.module := by
  obtain ⟨f, hf, b, hb⟩ := h
  have hfc : f.fid = s.curFn := by simpa using List.find?_some hf
  unfold pushBackBB
  rcases hd : s.detached.find? (fun x => x.bid = bid') with _ | nb
  · rw [hd]
  · rw [hd]
    unfold blockInstrs
    dsimp only
    rw [find?_mapFn s.curFn s.curFn (fun f => { f with blocks := f.blocks ++ [nb] })
          (fun f => rfl) _ _ hf, if_pos hfc, hf]
    dsimp only
    rw [find?_append_of_isSome _ _ _ (by rw [hb] ; rfl), hb]

theorem hasBlock_pushBack (bid' fid bid : Nat) (s : CG)
    (h : hasBlock fid bid s.module) :
    hasBlock fid bid (pushBackBB bid' s).module := by
  obtain ⟨f, hf, b, hb⟩ := h
  unfold pushBackBB
  rcases hd : s.detached.find? (fun x => x.bid = bid') with _ | nb
  · rw [hd]
    exact ⟨f, hf, b, hb⟩
  · rw [hd]
    rw [hasBlock]
    dsimp only
    rw [find?_mapFn s.curFn fid (fun f => { f with blocks := f.blocks ++ [nb] })
          (fun f => rfl) _ _ hf]
    by_cases hc : f.fid = s.curFn
    · rw [if_pos hc]
      refine ⟨_, rfl, ?_⟩
      dsimp only
      exact ⟨b, by rw [find?_append_of_isSome _ _ _ (by rw [hb] ; rfl)] ; exact hb⟩
    · rw [if_neg hc]
      exact ⟨f, rfl, b, hb⟩

theorem blockInstrs_pushBack_fresh (bid : Nat) (s : CG) (nb : BasicBlock)
    (hfind : s.detached.find? (fun x => x.bid = bid) = some nb)
    (hfn : hasFn s.curFn s.module)
    (hno : fnHasNoBlock s.curFn bid s.module) :
    blockInstrs s.curFn bid (pushBackBB bid s).module = nb.instrs
    ∧ hasBlock s.curFn bid (pushBackBB bid s).module := by
  obtain ⟨f, hf⟩ := hfn
  have hfc : f.fid = s.curFn := by simpa using List.find?_some hf
  have hnbid : nb.bid = bid := by simpa using List.find?_some hfind
  have hfmem : f ∈ s.module := List.mem_of_find?_eq_some hf
  have hnone : f.blocks.find? (fun b => b.bid = bid) = none := by
    rw [List.find?_eq_none]
    intro b hbmem
    simp only [decide_eq_true_eq]
    exact hno f hfmem hfc b hbmem
  unfold pushBackBB
  rw [hfind]
  constructor
  · unfold blockInstrs
    dsimp only
    rw [find?_mapFn s.curFn s.curFn (fun f => { f with blocks := f.blocks ++ [nb] })
          (fun f => rfl) _ _ hf, if_pos hfc]
    dsimp only
    rw [find?_append_of_none _ _ _ hnone]
    rw [List.find?_cons_of_pos _ (by simp [hnbid])]
  · rw [hasBlock]
    dsimp only
    rw [find?_mapFn s.curFn s.curFn (fun f => { f with blocks := f.blocks ++ [nb] })
          (fun f => rfl) _ _ hf, if_pos hfc]
    refine ⟨_, rfl, ?_⟩
    dsimp only
    rw [find?_append_of_none _ _ _ hnone]
    exact ⟨nb, by rw [List.find?_cons_of_pos _ (by simp [hnbid])]⟩

theorem blockInstrs_emit' (fid bid : Nat) (i : Instr) (s : CG)
    (hfid : fid = s.curFn) (hbid : bid = s.curBB) (h : hasBlock fid bid s.module) :
    blockInstrs fid bid (emit i s).2.module
      = blockInstrs fid bid s.module ++ [(s.nextVal, i)] := by
  subst hfid ; subst hbid ; exact blockInstrs_emit i s h

theorem blockInstrs_pushBack_same' (fid bid' bid : Nat) (s : CG)
    (hfid : fid = s.curFn) (h : hasBlock fid bid s.module) :
    blockInstrs fid bid (pushBackBB bid' s).module
      = blockInstrs fid bid s.module := by
  subst hfid ; exact blockInstrs_pushBack_same bid' bid s h

theorem blockInstrs_pushBack_fresh' (fid bid : Nat) (s : CG) (nb : BasicBlock)
    (hfid : fid = s.curFn)
    (hfind : s.detached.find? (fun x => x.bid = bid) = some nb)
    (hfn : hasFn fid s.module)
    (hno : fnHasNoBlock fid bid s.module) :
    blockInstrs fid bid (pushBackBB bid s).module = nb.instrs
    ∧ hasBlock fid bid (pushBackBB bid s).module := by
  subst hfid ; exact blockInstrs_pushBack_fresh bid s nb hfind hfn hno

theorem setInsertPoint_module (b : Nat) (s : CG) :
    (setInsertPoint b s).module = s.module := rfl

/-- What the first straight-line stage of the if-lowering does: the three
blocks are created fresh (with consecutive new ids), the builder stays in
the same function, is finally positioned at the new `then` block, and the
block that was current gains exactly the ordered-not-equal comparison of
the condition value against `0.0` followed by the conditional branch to
the fresh `then`/`else` blocks. -/
theorem ifAfterCond_spec (cv : Value) (s1 : CG)
    (hcb : hasBlock s1.curFn s1.curBB s1.module) :
    (ifAfterCond cv s1).1 = s1.nextBB
    ∧ (ifAfterCond cv s1).2.1 = s1.nextBB + 1
    ∧ (ifAfterCond cv s1).2.2.1 = s1.nextBB + 2
    ∧ (ifAfterCond cv s1).2.2.2.curFn = s1.curFn
    ∧ (ifAfterCond cv s1).2.2.2.curBB = s1.nextBB
    ∧ blockInstrs s1.curFn s1.curBB (ifAfterCond cv s1).2.2.2.module
        = blockInstrs s1.curFn s1.curBB s1.module
          ++ [(s1.nextVal, .fcmpONE cv (.constFP 0)),
              (s1.nextVal + 1, .condBr (.instr s1.nextVal) s1.nextBB (s1.nextBB + 1))] := by
  refine ⟨rfl, rfl, rfl, ?_, ?_, ?_⟩
  · show (pushBackBB _ _).curFn = s1.curFn
    exact (pushBackBB_projections _ _).1
  · rfl
  · unfold ifAfterCond
    dsimp only
    set r2 := emit (Instr.fcmpONE cv (Value.constFP 0)) s1
    set b1 := createDetachedBB "then" r2.2
    set b2 := createDetachedBB "else" b1.2
    set b3 := createDetachedBB "done" b2.2
    set r6 := emit (Instr.condBr r2.1 b1.1 b2.1) b3.2
    have hcb2 : hasBlock s1.curFn s1.curBB r2.2.module :=
      hasBlock_emit _ s1 _ _ hcb
    have hcb6 : hasBlock s1.curFn s1.curBB r6.2.module :=
      hasBlock_emit _ b3.2 _ _ hcb2
    rw [setInsertPoint_module]
    rw [blockInstrs_pushBack_same' s1.curFn b1.1 s1.curBB r6.2 rfl hcb6]
    rw [blockInstrs_emit' s1.curFn s1.curBB _ b3.2 rfl rfl hcb2]
    rw [show blockInstrs s1.curFn s1.curBB b3.2.module
        = blockInstrs s1.curFn s1.curBB (emit (Instr.fcmpONE cv (Value.constFP 0)) s1).2.module
        from rfl]
    rw [blockInstrs_emit' s1.curFn s1.curBB _ s1 rfl rfl hcb]
    rw [List.append_assoc]
    rfl

/-- The second straight-line stage: the branch to `done` is emitted into
the builder's current block, that block is the one recorded for the
φ-node, and the builder moves to the `else` block. -/
theorem ifAfterThen_spec (doneB elseB : Nat) (s8 : CG)
    (hcb : hasBlock s8.curFn s8.curBB s8.module) :
    (ifAfterThen doneB elseB s8).1 = s8.curBB
    ∧ (ifAfterThen doneB elseB s8).2.curFn = s8.curFn
    ∧ (ifAfterThen doneB elseB s8).2.curBB = elseB
    ∧ blockInstrs s8.curFn s8.curBB (ifAfterThen doneB elseB s8).2.module
        = blockInstrs s8.curFn s8.curBB s8.module ++ [(s8.nextVal, .br doneB)] := by
  refine ⟨rfl, ?_, rfl, ?_⟩
  · show (pushBackBB _ _).curFn = s8.curFn
    exact (pushBackBB_projections _ _).1
  · unfold ifAfterThen
    dsimp only
    set r9 := emit (Instr.br doneB) s8
    have hcb9 : hasBlock s8.curFn s8.curBB r9.2.module :=
      hasBlock_emit _ s8 _ _ hcb
    rw [setInsertPoint_module]
    rw [blockInstrs_pushBack_same' s8.curFn elseB s8.curBB r9.2 rfl hcb9]
    rw [blockInstrs_emit' s8.curFn s8.curBB _ s8 rfl rfl hcb]

/-- The final stage: the else-side branch to `done` is emitted, the
`done` block is appended and the builder positioned there, and `done`
receives exactly one instruction — a φ-node of double type with exactly
the two incoming edges `(then-value, recorded then-block)` and
`(else-value, recorded else-block)` — whose value is the result. -/
theorem ifAfterElse_spec (doneB thenBB : Nat) (tv ev : Value) (s11 : CG)
    (hdet : s11.detached.find? (fun b => b.bid = doneB) = some ⟨doneB, "done", []⟩)
    (hfn : hasFn s11.curFn s11.module)
    (hno : fnHasNoBlock s11.curFn doneB s11.module) :
    (ifAfterElse doneB thenBB tv ev s11).1 = some (.instr (s11.nextVal + 1))
    ∧ blockInstrs s11.curFn doneB (ifAfterElse doneB thenBB tv ev s11).2.module
        = [(s11.nextVal + 1, .phi .double [(tv, thenBB), (ev, s11.curBB)])] := by
  have hpb := blockInstrs_pushBack_fresh' s11.curFn doneB
    (emit (.br doneB) s11).2 ⟨doneB, "done", []⟩ rfl hdet
    (hasFn_emit _ _ _ hfn) (fnHasNoBlock_emit _ _ _ _ hno)
  constructor
  · show some (Value.instr (pushBackBB doneB (emit (Instr.br doneB) s11).2).nextVal)
      = some (Value.instr (s11.nextVal + 1))
    rw [(pushBackBB_projections doneB (emit (Instr.br doneB) s11).2).2.2.1]
    rfl
  · unfold ifAfterElse
    dsimp only
    set r12 := emit (Instr.br doneB) s11
    set s13 := setInsertPoint doneB (pushBackBB doneB r12.2) with hs13
    rw [blockInstrs_emit' s11.curFn doneB _ s13
          ((pushBackBB_projections doneB r12.2).1.symm) rfl hpb.2]
    rw [show blockInstrs s11.curFn doneB s13.module
        = blockInstrs s11.curFn doneB (pushBackBB doneB r12.2).module from rfl]
    rw [hpb.1]
    rw [show s13.nextVal = (pushBackBB doneB r12.2).nextVal from rfl]
    rw [(pushBackBB_projections doneB r12.2).2.2.1]
    rfl

/-- C3: lowering `if c then t else e` emits an ordered-not-equal
comparison of the condition value against `0.0` and a conditional branch
to two freshly created `then`/`else` blocks; after each branch is
lowered and its jump to `done` emitted, the builder's then-current block
— not the originally created one — is recorded; the `done` block holds a
φ-node of double type with exactly the two incoming edges
`(then-value, recorded-then-block)` and `(else-value,
recorded-else-block)`, and that φ is the expression's result.  The final
closed conjuncts run a nested `if` inside the then-branch: the outer
then block is block 1 (named "then") but the recorded incoming block of
the outer φ is block 6 (the inner "done" block). -/
theorem C3_if_lowering (c t e : Expr ℚ) (s : CG)
    (cv tv ev : Value) (s1 s7 s8 s10 s11 : CG)
    (thenB elseB doneB thenRec : Nat)
    (h1 : codegenExpr c s = (some cv, s1))
    (hstage : ifAfterCond cv s1 = (thenB, elseB, doneB, s7))
    (h2 : codegenExpr t s7 = (some tv, s8))
    (hthen : ifAfterThen doneB elseB s8 = (thenRec, s10))
    (h3 : codegenExpr e s10 = (some ev, s11))
    (hcb : hasBlock s1.curFn s1.curBB s1.module)
    (hdet : s11.detached.find? (fun b => b.bid = doneB) = some ⟨doneB, "done", []⟩)
    (hfn : hasFn s11.curFn s11.module)
    (hno : fnHasNoBlock s11.curFn doneB s11.module) :
    (thenB = s1.nextBB ∧ elseB = s1.nextBB + 1 ∧ doneB = s1.nextBB + 2)
    ∧ blockInstrs s1.curFn s1.curBB s7.module
        = blockInstrs s1.curFn s1.curBB s1.module
          ++ [(s1.nextVal, .fcmpONE cv (.constFP 0)),
              (s1.nextVal + 1, .condBr (.instr s1.nextVal) thenB elseB)]
    ∧ thenRec = s8.curBB
    ∧ codegenExpr (.ifExpr c t e) s = ifAfterElse doneB thenRec tv ev s11
    ∧ (ifAfterElse doneB thenRec tv ev s11).1 = some (.instr (s11.nextVal + 1))
    ∧ blockInstrs s11.curFn doneB (ifAfterElse doneB thenRec tv ev s11).2.module
        = [(s11.nextVal + 1, .phi .double [(tv, thenRec), (ev, s11.curBB)])]
    ∧ blockName 0 1 (codegenFunction ⟨⟨"", []⟩,
          .ifExpr (.num 1) (.ifExpr (.num 1) (.num 2) (.num 3)) (.num 4)⟩ initCG).2.module
        = some "then"
    ∧ blockName 0 6 (codegenFunction ⟨⟨"", []⟩,
          .ifExpr (.num 1) (.ifExpr (.num 1) (.num 2) (.num 3)) (.num 4)⟩ initCG).2.module
        = some "done"
    ∧ blockInstrs 0 3 (codegenFunction ⟨⟨"", []⟩,
          .ifExpr (.num 1) (.ifExpr (.num 1) (.num 2) (.num 3)) (.num 4)⟩ initCG).2.module
        = [(9, .phi .double [(.instr 6, 6), (.constFP 4, 2)]),
           (10, .ret (.instr 9))] := by
  obtain ⟨e1, e2, e3, _, _, einstr⟩ := ifAfterCond_spec cv s1 hcb
  have et1 : thenB = s1.nextBB := by rw [← e1, hstage]
  have et2 : elseB = s1.nextBB + 1 := by rw [← e2, hstage]
  have et3 : doneB = s1.nextBB + 2 := by rw [← e3, hstage]
  have es7 : s7 = (ifAfterCond cv s1).2.2.2 := by rw [hstage]
  have erec : thenRec = s8.curBB := by
    rw [show s8.curBB = (ifAfterThen doneB elseB s8).1 from rfl, hthen]
  refine ⟨⟨et1, et2, et3⟩, ?_, erec, ?_,
    (ifAfterElse_spec doneB thenRec tv ev s11 hdet hfn hno).1,
    (ifAfterElse_spec doneB thenRec tv ev s11 hdet hfn hno).2,
    rfl, rfl, rfl⟩
  · rw [es7, et1, et2]
    exact einstr
  · rw [codegenExpr, h1]
    dsimp only
    rw [hstage]
    dsimp only
    rw [h2]
    dsimp only
    rw [hthen]
    dsimp only
    rw [h3]

/-- Witness for C3 at `if 1 then 2 else 3` lowered inside a function
with an entry block: the φ value is `instr 5`. -/
theorem C3_witness :
    (ifAfterElse 3 1 (.constFP 2) (.constFP 3)
        (ifAfterThen 3 2 (ifAfterCond (.constFP 1)
          (⟨1, 1, 1, 0, 0, [⟨0, "w", 0, [⟨0, "entry", []⟩]⟩], [], [], [], []⟩ : CG)).2.2.2).2).1
      = some (.instr 5) := by
  have h := C3_if_lowering (.num 1) (.num 2) (.num 3)
    ⟨1, 1, 1, 0, 0, [⟨0, "w", 0, [⟨0, "entry", []⟩]⟩], [], [], [], []⟩
    (.constFP 1) (.constFP 2) (.constFP 3)
    ⟨1, 1, 1, 0, 0, [⟨0, "w", 0, [⟨0, "entry", []⟩]⟩], [], [], [], []⟩
    (ifAfterCond (.constFP 1)
      (⟨1, 1, 1, 0, 0, [⟨0, "w", 0, [⟨0, "entry", []⟩]⟩], [], [], [], []⟩ : CG)).2.2.2
    (ifAfterCond (.constFP 1)
      (⟨1, 1, 1, 0, 0, [⟨0, "w", 0, [⟨0, "entry", []⟩]⟩], [], [], [], []⟩ : CG)).2.2.2
    (ifAfterThen 3 2 (ifAfterCond (.constFP 1)
      (⟨1, 1, 1, 0, 0, [⟨0, "w", 0, [⟨0, "entry", []⟩]⟩], [], [], [], []⟩ : CG)).2.2.2).2
    (ifAfterThen 3 2 (ifAfterCond (.constFP 1)
      (⟨1, 1, 1, 0, 0, [⟨0, "w", 0, [⟨0, "entry", []⟩]⟩], [], [], [], []⟩ : CG)).2.2.2).2
    1 2 3 1
    rfl rfl rfl rfl rfl
    ⟨⟨0, "w", 0, [⟨0, "entry", []⟩]⟩, rfl, ⟨0, "entry", []⟩, rfl⟩
    rfl ⟨_, rfl⟩ (by unfold fnHasNoBlock ; decide)
  exact h.2.2.2.2.1

/-! Frame reasoning: expression lowering only ever writes into the
current function, so every other function of the module survives
unchanged.  This is what makes `Fn->eraseFromParent()` after a failed
body a complete rollback. -/

theorem filter_mapFn (fid : Nat) (g : Func → Func) (hg : ∀ f, (g f).fid = f.fid)
    (m : List Func) :
    (mapFn fid g m).filter (fun f => f.fid ≠ fid) = m.filter (fun f => f.fid ≠ fid) := by
  induction m with
  | nil => rfl
  | cons f rest ih =>
      by_cases h : f.fid = fid
      · simp only [mapFn, List.map_cons, if_pos h, List.filter_cons]
        rw [if_neg (by simp [hg, h]), if_neg (by simp [h])]
        exact ih
      · simp only [mapFn, List.map_cons, if_neg h, List.filter_cons]
        rw [if_pos (by simp [h]), if_pos (by simp [h])]
        exact congrArg (List.cons f) ih

theorem emit_frame (i : Instr) (s : CG) :
    (emit i s).2.curFn = s.curFn
    ∧ (emit i s).2.module.filter (fun g => g.fid ≠ s.curFn)
        = s.module.filter (fun g => g.fid ≠ s.curFn) := by
  refine ⟨rfl, ?_⟩
  rw [emit_module]
  exact filter_mapFn s.curFn (emitFnUpd i s) (fun f => rfl) s.module

theorem pushBack_frame (bid : Nat) (s : CG) :
    (pushBackBB bid s).curFn = s.curFn
    ∧ (pushBackBB bid s).module.filter (fun g => g.fid ≠ s.curFn)
        = s.module.filter (fun g => g.fid ≠ s.curFn) := by
  refine ⟨(pushBackBB_projections bid s).1, ?_⟩
  unfold pushBackBB
  rcases hd : s.detached.find? (fun x => x.bid = bid) with _ | nb
  · rw [hd]
  · rw [hd]
    exact filter_mapFn s.curFn (fun f => { f with blocks := f.blocks ++ [nb] })
      (fun f => rfl) s.module

theorem ifAfterCond_frame (cv : Value) (s1 : CG) :
    (ifAfterCond cv s1).2.2.2.curFn = s1.curFn
    ∧ (ifAfterCond cv s1).2.2.2.module.filter (fun g => g.fid ≠ s1.curFn)
        = s1.module.filter (fun g => g.fid ≠ s1.curFn) := by
  constructor
  · show (pushBackBB _ _).curFn = s1.curFn
    exact (pushBackBB_projections _ _).1
  · unfold ifAfterCond
    dsimp only
    set r2 := emit (Instr.fcmpONE cv (Value.constFP 0)) s1
    set b1 := createDetachedBB "then" r2.2
    set b2 := createDetachedBB "else" b1.2
    set b3 := createDetachedBB "done" b2.2
    set r6 := emit (Instr.condBr r2.1 b1.1 b2.1) b3.2
    rw [setInsertPoint_module]
    calc (pushBackBB b1.1 r6.2).module.filter (fun g => g.fid ≠ s1.curFn)
        = r6.2.module.filter (fun g => g.fid ≠ s1.curFn) := by
          exact (pushBack_frame b1.1 r6.2).2
      _ = b3.2.module.filter (fun g => g.fid ≠ s1.curFn) := by
          exact (emit_frame (Instr.condBr r2.1 b1.1 b2.1) b3.2).2
      _ = s1.module.filter (fun g => g.fid ≠ s1.curFn) := (emit_frame _ s1).2

theorem ifAfterThen_frame (doneB elseB : Nat) (s8 : CG) :
    (ifAfterThen doneB elseB s8).2.curFn = s8.curFn
    ∧ (ifAfterThen doneB elseB s8).2.module.filter (fun g => g.fid ≠ s8.curFn)
        = s8.module.filter (fun g => g.fid ≠ s8.curFn) := by
  constructor
  · show (pushBackBB _ _).curFn = s8.curFn
    exact (pushBackBB_projections _ _).1
  · unfold ifAfterThen
    dsimp only
    rw [setInsertPoint_module]
    calc (pushBackBB elseB (emit (Instr.br doneB) s8).2).module.filter (fun g => g.fid ≠ s8.curFn)
        = (emit (Instr.br doneB) s8).2.module.filter (fun g => g.fid ≠ s8.curFn) := by
          exact (pushBack_frame elseB (emit (Instr.br doneB) s8).2).2
      _ = s8.module.filter (fun g => g.fid ≠ s8.curFn) := (emit_frame _ s8).2

theorem ifAfterElse_frame (doneB thenBB : Nat) (tv ev : Value) (s11 : CG) :
    (ifAfterElse doneB thenBB tv ev s11).2.curFn = s11.curFn
    ∧ (ifAfterElse doneB thenBB tv ev s11).2.module.filter (fun g => g.fid ≠ s11.curFn)
        = s11.module.filter (fun g => g.fid ≠ s11.curFn) := by
  constructor
  · show (pushBackBB _ _).curFn = s11.curFn
    exact (pushBackBB_projections _ _).1
  · unfold ifAfterElse
    dsimp only
    set r12 := emit (Instr.br doneB) s11
    calc (emit (Instr.phi Ty.double [(tv, thenBB), (ev, r12.2.curBB)])
            (setInsertPoint doneB (pushBackBB doneB r12.2))).2.module.filter
          (fun g => g.fid ≠ s11.curFn)
        = (setInsertPoint doneB (pushBackBB doneB r12.2)).module.filter
            (fun g => g.fid ≠ s11.curFn) := by
          have hc : (setInsertPoint doneB (pushBackBB doneB r12.2)).curFn = s11.curFn := by
            show (pushBackBB doneB r12.2).curFn = s11.curFn
            exact (pushBackBB_projections doneB r12.2).1
          rw [← hc]
          exact (emit_frame (Instr.phi Ty.double [(tv, thenBB), (ev, r12.2.curBB)])
            (setInsertPoint doneB (pushBackBB doneB r12.2))).2
      _ = (pushBackBB doneB r12.2).module.filter (fun g => g.fid ≠ s11.curFn) := by
          rw [setInsertPoint_module]
      _ = r12.2.module.filter (fun g => g.fid ≠ s11.curFn) := by
          exact (pushBack_frame doneB r12.2).2
      _ = s11.module.filter (fun g => g.fid ≠ s11.curFn) := (emit_frame _ s11).2

/-- State `p` differs from `base` only inside function `base.curFn`: the
builder stayed in the same function and every other function of the
module is untouched. -/
def frameTo (base p : CG) : Prop :=
  p.curFn = base.curFn
  ∧ p.module.filter (fun g => g.fid ≠ base.curFn)
      = base.module.filter (fun g => g.fid ≠ base.curFn)

theorem frameTo_refl (s : CG) : frameTo s s := ⟨rfl, rfl⟩

theorem frameTo_trans {s p q : CG} (h1 : frameTo s p) (h2 : frameTo p q) :
    frameTo s q := by
  obtain ⟨ha, hb⟩ := h1
  obtain ⟨hc, hd⟩ := h2
  refine ⟨hc.trans ha, ?_⟩
  rw [← ha, hd, ha]
  exact hb

theorem emit_frameTo (i : Instr) (s : CG) : frameTo s (emit i s).2 :=
  emit_frame i s

theorem errorV_frameTo (msg : String) (s : CG) : frameTo s (errorV msg s) :=
  ⟨rfl, rfl⟩

theorem ifAfterCond_frameTo (cv : Value) (s1 : CG) :
    frameTo s1 (ifAfterCond cv s1).2.2.2 :=
  ifAfterCond_frame cv s1

theorem ifAfterThen_frameTo (doneB elseB : Nat) (s8 : CG) :
    frameTo s8 (ifAfterThen doneB elseB s8).2 :=
  ifAfterThen_frame doneB elseB s8

theorem ifAfterElse_frameTo (doneB thenBB : Nat) (tv ev : Value) (s11 : CG) :
    frameTo s11 (ifAfterElse doneB thenBB tv ev s11).2 :=
  ifAfterElse_frame doneB thenBB tv ev s11

/-- Expression lowering never touches a function other than the one the
builder is positioned in, and never moves the builder to another
function (induction over the syntax tree, by size because of the nested
argument lists). -/
theorem codegenExpr_frameTo :
    ∀ n : Nat,
      (∀ e : Expr ℚ, sizeOf e ≤ n → ∀ s : CG, frameTo s (codegenExpr e s).2)
      ∧ (∀ args : List (Expr ℚ), (∀ a ∈ args, sizeOf a ≤ n) → ∀ s : CG,
          frameTo s (codegenArgs args s).2) := by
  intro n
  induction n with
  | zero =>
      refine ⟨?_, ?_⟩
      · intro e he s
        exact absurd he (by cases e <;> simp_arith)
      · intro args hargs s
        cases args with
        | nil => exact frameTo_refl s
        | cons a rest => exact absurd (hargs a (by simp)) (by cases a <;> simp_arith)
  | succ n ih =>
      obtain ⟨ihE, ihA⟩ := ih
      have exprPart : ∀ e : Expr ℚ, sizeOf e ≤ n + 1 → ∀ s : CG,
          frameTo s (codegenExpr e s).2 := by
        intro e he s
        cases e with
        | num v => exact frameTo_refl s
        | ident nm =>
            rw [codegenExpr]
            rcases hsy : symLookup s.symbols nm with _ | v
            · exact errorV_frameTo _ s
            · exact frameTo_refl s
        | binary op l r =>
            have hsl : sizeOf l ≤ n := by
              have h := he ; simp only [Expr.binary.sizeOf_spec] at h ; omega
            have hsr : sizeOf r ≤ n := by
              have h := he ; simp only [Expr.binary.sizeOf_spec] at h ; omega
            rcases hle : codegenExpr l s with ⟨lv?, s1⟩
            have hfl : frameTo s s1 := by
              have h := ihE l hsl s ; rw [hle] at h ; exact h
            rcases hre : codegenExpr r s1 with ⟨rv?, s2⟩
            have hfr : frameTo s1 s2 := by
              have h := ihE r hsr s1 ; rw [hre] at h ; exact h
            have hbase : frameTo s s2 := frameTo_trans hfl hfr
            rw [codegenExpr, hle]
            dsimp only
            rw [hre]
            dsimp only
            cases lv? with
            | none => cases rv? <;> exact hbase
            | some lv =>
                cases rv? with
                | none => exact hbase
                | some rv =>
                    split_ifs <;>
                      first
                        | exact frameTo_trans hbase (errorV_frameTo _ s2)
                        | exact frameTo_trans hbase (emit_frameTo _ s2)
                        | exact frameTo_trans hbase
                            (frameTo_trans (emit_frameTo _ s2) (emit_frameTo _ _))
        | call callee args =>
            rw [codegenExpr]
            rcases hfd : findFnByName callee s.module with _ | f
            · exact errorV_frameTo _ s
            · dsimp only
              split_ifs with harg
              · exact errorV_frameTo _ s
              · have hargs : ∀ a ∈ args, sizeOf a ≤ n := by
                  intro a ha
                  have hlt := List.sizeOf_lt_of_mem ha
                  have h := he ; simp only [Expr.call.sizeOf_spec] at h ; omega
                rcases hae : codegenArgs args s with ⟨vals?, s1⟩
                have hfa : frameTo s s1 := by
                  have h := ihA args hargs s ; rw [hae] at h ; exact h
                cases vals? with
                | none => exact hfa
                | some vals => exact frameTo_trans hfa (emit_frameTo _ s1)
        | ifExpr c t e2 =>
            have hsc : sizeOf c ≤ n := by
              have h := he ; simp only [Expr.ifExpr.sizeOf_spec] at h ; omega
            have hst : sizeOf t ≤ n := by
              have h := he ; simp only [Expr.ifExpr.sizeOf_spec] at h ; omega
            have hse : sizeOf e2 ≤ n := by
              have h := he ; simp only [Expr.ifExpr.sizeOf_spec] at h ; omega
            rw [codegenExpr]
            split
            · rename_i s1 heq
              have h := ihE c hsc s ; rw [heq] at h ; exact h
            · rename_i cv s1 heq
              have hfc : frameTo s s1 := by
                have h := ihE c hsc s ; rw [heq] at h ; exact h
              split
              rename_i b1 b2 b3 s7 heq7
              have hf7 : frameTo s1 s7 := by
                have h := ifAfterCond_frameTo cv s1 ; rw [heq7] at h ; exact h
              split
              · rename_i s8 heq2
                have h := ihE t hst s7 ; rw [heq2] at h
                exact frameTo_trans hfc (frameTo_trans hf7 h)
              · rename_i tv s8 heq2
                have hft : frameTo s7 s8 := by
                  have h := ihE t hst s7 ; rw [heq2] at h ; exact h
                split
                rename_i thenRec s10 heq10
                have hf10 : frameTo s8 s10 := by
                  have h := ifAfterThen_frameTo b3 b2 s8 ; rw [heq10] at h ; exact h
                split
                · rename_i s11 heq3
                  have h := ihE e2 hse s10 ; rw [heq3] at h
                  exact frameTo_trans hfc (frameTo_trans hf7
                    (frameTo_trans hft (frameTo_trans hf10 h)))
                · rename_i ev s11 heq3
                  have hfe : frameTo s10 s11 := by
                    have h := ihE e2 hse s10 ; rw [heq3] at h ; exact h
                  exact frameTo_trans hfc (frameTo_trans hf7
                    (frameTo_trans hft (frameTo_trans hf10
                      (frameTo_trans hfe (ifAfterElse_frameTo b3 thenRec tv ev s11)))))
      have argsPart : ∀ args : List (Expr ℚ), (∀ a ∈ args, sizeOf a ≤ n + 1) →
          ∀ s : CG, frameTo s (codegenArgs args s).2 := by
        intro args
        induction args with
        | nil => intro _ s ; exact frameTo_refl s
        | cons a rest ihrest =>
            intro hargs s
            rw [codegenArgs]
            split
            · rename_i s1 heq
              have h := exprPart a (hargs a (by simp)) s ; rw [heq] at h ; exact h
            · rename_i v s1 heq
              have hfa : frameTo s s1 := by
                have h := exprPart a (hargs a (by simp)) s ; rw [heq] at h ; exact h
              split
              · rename_i s2 heq2
                have h := ihrest (fun x hx => hargs x (by simp [hx])) s1
                rw [heq2] at h
                exact frameTo_trans hfa h
              · rename_i vs s2 heq2
                have h := ihrest (fun x hx => hargs x (by simp [hx])) s1
                rw [heq2] at h
                exact frameTo_trans hfa h
      exact ⟨exprPart, argsPart⟩

theorem renamed_ne (n t : String) : n ++ "." ++ t ≠ n := by
  intro h
  have hl := congrArg String.length h
  rw [String.length_append, String.length_append] at hl
  have hdot : (String.length ".") = 1 := rfl
  omega

/-- `PrototypeNode::Codegen` without a collision: the fresh function is
kept, attached under the requested name, and the parameters are bound in
the symbol table. -/
theorem codegenProto_fresh (p : Prototype) (s : CG)
    (hnc : p.name = "" ∨ findFnByName p.name s.module = none) :
    codegenProto p s
      = (some s.nextFn,
         bindParams s.nextFn p.params
           { s with nextFn := s.nextFn + 1,
                    module := s.module ++ [⟨s.nextFn, p.name, p.params.length, []⟩] }) := by
  have htaken : ¬(p.name ≠ "" ∧ (findFnByName p.name s.module).isSome) := by
    rcases hnc with h | h
    · intro hc ; exact hc.1 h
    · intro hc ; rw [h] at hc ; exact absurd hc.2 (by simp)
  unfold codegenProto
  dsimp only
  rw [if_neg htaken]
  rw [if_neg (by simp : ¬(p.name ≠ p.name))]

/-- `PrototypeNode::Codegen` with a collision on a non-empty name: the
fresh, renamed function is erased (restoring the module) and the
pre-existing function is fetched and examined. -/
theorem codegenProto_collision (p : Prototype) (s : CG) (old : Func)
    (hne : p.name ≠ "")
    (hold : findFnByName p.name s.module = some old)
    (hfid : ∀ g ∈ s.module, g.fid ≠ s.nextFn) :
    codegenProto p s
      = (if old.blocks ≠ [] then
           (none, errorV "Redefinition of function not allowed" { s with nextFn := s.nextFn + 1 })
         else if old.arity ≠ p.params.length then
           (none, errorV "Redefining function with arity mismatch" { s with nextFn := s.nextFn + 1 })
         else
           (some old.fid, bindParams old.fid p.params { s with nextFn := s.nextFn + 1 })) := by
  have htaken : (p.name ≠ "" ∧ (findFnByName p.name s.module).isSome) :=
    ⟨hne, by rw [hold] ; rfl⟩
  have hmod : (s.module
        ++ [(⟨s.nextFn, p.name ++ "." ++ toString s.nextFn, p.params.length, []⟩ : Func)]).filter
      (fun f => f.fid ≠ s.nextFn) = s.module := by
    rw [List.filter_append]
    have h1 : s.module.filter (fun f => f.fid ≠ s.nextFn) = s.module :=
      List.filter_eq_self.mpr (fun g hg => by simpa using hfid g hg)
    have h2 : ([(⟨s.nextFn, p.name ++ "." ++ toString s.nextFn, p.params.length, []⟩ : Func)]
        : List Func).filter (fun f => f.fid ≠ s.nextFn) = [] := by
      simp [List.filter]
    rw [h1, h2, List.append_nil]
  unfold codegenProto
  dsimp only
  rw [if_pos htaken]
  rw [if_pos (renamed_ne p.name (toString s.nextFn))]
  unfold eraseFn
  dsimp only
  rw [hmod, hold]

theorem codegenFunction_eq (fn : FunctionAST ℚ) (s : CG) :
    codegenFunction fn s
      = match codegenProto fn.proto { s with symbols := [] } with
        | (none, s1) => (none, s1)
        | (some fid, s1) =>
            match codegenExpr fn.body (functionEntry fid s1) with
            | (none, s3) => (none, eraseFn fid s3)
            | (some bv, s3) =>
                (some fid, { (emit (.ret bv) s3).2 with
                    optimized := (emit (.ret bv) s3).2.optimized ++ [fid] }) := rfl

theorem codegenFunction_protoFail (fn : FunctionAST ℚ) (s s1 : CG)
    (hp : codegenProto fn.proto { s with symbols := [] } = (none, s1)) :
    codegenFunction fn s = (none, s1) := by
  rw [codegenFunction_eq, hp]

theorem codegenFunction_bodyFail (fn : FunctionAST ℚ) (s : CG) (fid : Nat) (s1 s3 : CG)
    (hp : codegenProto fn.proto { s with symbols := [] } = (some fid, s1))
    (hb : codegenExpr fn.body (functionEntry fid s1) = (none, s3)) :
    codegenFunction fn s = (none, eraseFn fid s3) := by
  rw [codegenFunction_eq]
  split
  · rename_i s1' heq
    rw [hp] at heq ; simp at heq
  · rename_i fid' s1' heq
    rw [hp] at heq
    injection heq with h1 h2
    injection h1 with h1
    subst h1 ; subst h2
    split
    · rename_i s3' heq2
      rw [hb] at heq2
      injection heq2 with _ h3
      rw [h3]
    · rename_i bv s3' heq2
      rw [hb] at heq2 ; simp at heq2

theorem codegenFunction_bodyOk (fn : FunctionAST ℚ) (s : CG) (fid : Nat)
    (s1 s3 : CG) (bv : Value)
    (hp : codegenProto fn.proto { s with symbols := [] } = (some fid, s1))
    (hb : codegenExpr fn.body (functionEntry fid s1) = (some bv, s3)) :
    codegenFunction fn s
      = (some fid, { (emit (.ret bv) s3).2 with
          optimized := (emit (.ret bv) s3).2.optimized ++ [fid] }) := by
  rw [codegenFunction_eq]
  split
  · rename_i s1' heq
    rw [hp] at heq ; simp at heq
  · rename_i fid' s1' heq
    rw [hp] at heq
    injection heq with h1 h2
    injection h1 with h1
    subst h1 ; subst h2
    split
    · rename_i s3' heq2
      rw [hb] at heq2 ; simp at heq2
    · rename_i bv' s3' heq2
      rw [hb] at heq2
      injection heq2 with h3 h4
      injection h3 with h3
      subst h3 ; subst h4
      rfl

/-- C4: when a prototype's non-empty name collides with an existing
module function, the renamed fresh function is erased and the
pre-existing one fetched by name; a pre-existing body fails with
"Redefinition of function not allowed", an arity mismatch fails with
"Redefining function with arity mismatch", and otherwise the
pre-existing function object is reused.  The closed conjuncts check
`extern f(a)` followed by `def f(b) b+1`: one function `f` with one
parameter, no errors. -/
theorem C4_prototype_rebinding (p : Prototype) (s : CG) (old : Func)
    (hne : p.name ≠ "")
    (hold : findFnByName p.name s.module = some old)
    (hfid : ∀ g ∈ s.module, g.fid ≠ s.nextFn) :
    (old.blocks ≠ [] → codegenProto p s
        = (none, errorV "Redefinition of function not allowed" { s with nextFn := s.nextFn + 1 }))
    ∧ (old.blocks = [] → old.arity ≠ p.params.length → codegenProto p s
        = (none, errorV "Redefining function with arity mismatch" { s with nextFn := s.nextFn + 1 }))
    ∧ (old.blocks = [] → old.arity = p.params.length → codegenProto p s
        = (some old.fid, bindParams old.fid p.params { s with nextFn := s.nextFn + 1 }))
    ∧ (codegenFunction ⟨⟨"f", ["b"]⟩, .binary '+' (.ident "b") (.num 1)⟩
          (codegenProto ⟨"f", ["a"]⟩ initCG).2).1 = some 0
    ∧ ((codegenFunction ⟨⟨"f", ["b"]⟩, .binary '+' (.ident "b") (.num 1)⟩
          (codegenProto ⟨"f", ["a"]⟩ initCG).2).2.module.map
        (fun g => (g.name, g.arity))) = [("f", 1)]
    ∧ (codegenFunction ⟨⟨"f", ["b"]⟩, .binary '+' (.ident "b") (.num 1)⟩
          (codegenProto ⟨"f", ["a"]⟩ initCG).2).2.errors = [] := by
  have hc := codegenProto_collision p s old hne hold hfid
  refine ⟨?_, ?_, ?_, rfl, rfl, rfl⟩
  · intro hblocks
    rw [hc, if_pos hblocks]
  · intro hblocks harity
    rw [hc, if_neg (by simp [hblocks]), if_pos harity]
  · intro hblocks harity
    rw [hc, if_neg (by simp [hblocks]), if_neg (by simp [harity])]

/-- Witness for C4: redefining a function that already has a body is
rejected. -/
theorem C4_witness :
    codegenProto ⟨"f", ["x"]⟩
        ({ initCG with module := [⟨0, "f", 1, [⟨0, "entry", []⟩]⟩], nextFn := 1 } : CG)
      = (none, errorV "Redefinition of function not allowed"
          { ({ initCG with module := [⟨0, "f", 1, [⟨0, "entry", []⟩]⟩], nextFn := 1 } : CG)
            with nextFn := 2 }) := by
  have h := C4_prototype_rebinding ⟨"f", ["x"]⟩
    ({ initCG with module := [⟨0, "f", 1, [⟨0, "entry", []⟩]⟩], nextFn := 1 } : CG)
    ⟨0, "f", 1, [⟨0, "entry", []⟩]⟩
    (by decide) rfl (by decide)
  exact h.1 (by decide)

/-- C5: `FunctionNode::Codegen` clears the symbol table, lowers the
prototype, creates an entry block and lowers the body there; if the body
fails, the function object is erased from the module and null is
returned — and when the prototype's name was fresh, the module is left
exactly as it was, so no partial emission survives; on success a
floating-point return of the body value is emitted and the optimization
pipeline is run on the function.  The closed conjunct checks a failing
anonymous body against the empty module. -/
theorem C5_function_lowering :
    (∀ (fn : FunctionAST ℚ) (s s1 : CG),
        codegenProto fn.proto { s with symbols := [] } = (none, s1) →
        codegenFunction fn s = (none, s1))
    ∧ (∀ (fn : FunctionAST ℚ) (s : CG) (fid : Nat) (s1 : CG),
        codegenProto fn.proto { s with symbols := [] } = (some fid, s1) →
        (∀ s3, codegenExpr fn.body (functionEntry fid s1) = (none, s3) →
            codegenFunction fn s = (none, eraseFn fid s3)
            ∧ ∀ g ∈ (eraseFn fid s3).module, g.fid ≠ fid)
        ∧ (∀ bv s3, codegenExpr fn.body (functionEntry fid s1) = (some bv, s3) →
            codegenFunction fn s
              = (some fid, { (emit (.ret bv) s3).2 with
                  optimized := (emit (.ret bv) s3).2.optimized ++ [fid] })))
    ∧ (∀ (fn : FunctionAST ℚ) (s s3 : CG),
        (fn.proto.name = "" ∨ findFnByName fn.proto.name s.module = none) →
        (∀ g ∈ s.module, g.fid ≠ s.nextFn) →
        codegenExpr fn.body (functionEntry s.nextFn
          (bindParams s.nextFn fn.proto.params
            { s with symbols := [], nextFn := s.nextFn + 1,
                     module := s.module ++ [⟨s.nextFn, fn.proto.name, fn.proto.params.length, []⟩] }))
          = (none, s3) →
        codegenFunction fn s = (none, eraseFn s.nextFn s3)
        ∧ (eraseFn s.nextFn s3).module = s.module)
    ∧ codegenFunction ⟨⟨"", []⟩, .ident "y"⟩ initCG
        = (none, { initCG with nextFn := 1, nextBB := 1,
                               errors := ["Error: Undefined variable"] }) := by
  refine ⟨codegenFunction_protoFail, ?_, ?_, rfl⟩
  · intro fn s fid s1 hp
    constructor
    · intro s3 hb
      refine ⟨codegenFunction_bodyFail fn s fid s1 s3 hp hb, ?_⟩
      intro g hg
      rw [eraseFn] at hg
      simp only [List.mem_filter, decide_eq_true_eq] at hg
      exact hg.2
    · intro bv s3 hb
      exact codegenFunction_bodyOk fn s fid s1 s3 bv hp hb
  · intro fn s s3 hnc hfid hb
    have hnc' : fn.proto.name = ""
        ∨ findFnByName fn.proto.name ({ s with symbols := [] } : CG).module = none := hnc
    have hp := codegenProto_fresh fn.proto { s with symbols := [] } hnc'
    constructor
    · exact codegenFunction_bodyFail fn s s.nextFn _ s3 hp hb
    · have hframe : frameTo (functionEntry s.nextFn
          (bindParams s.nextFn fn.proto.params
            { s with symbols := [], nextFn := s.nextFn + 1,
                     module := s.module ++ [⟨s.nextFn, fn.proto.name, fn.proto.params.length, []⟩] })) s3 := by
        have h := ((codegenExpr_frameTo (sizeOf fn.body)).1 fn.body le_rfl
          (functionEntry s.nextFn
            (bindParams s.nextFn fn.proto.params
              { s with symbols := [], nextFn := s.nextFn + 1,
                       module := s.module ++ [⟨s.nextFn, fn.proto.name, fn.proto.params.length, []⟩] })))
        rw [hb] at h
        exact h
      have hmod : (s.module
            ++ [(⟨s.nextFn, fn.proto.name, fn.proto.params.length, []⟩ : Func)]).filter
          (fun f => f.fid ≠ s.nextFn) = s.module := by
        rw [List.filter_append]
        have h1 : s.module.filter (fun f => f.fid ≠ s.nextFn) = s.module :=
          List.filter_eq_self.mpr (fun g hg => by simpa using hfid g hg)
        have h2 : ([(⟨s.nextFn, fn.proto.name, fn.proto.params.length, []⟩ : Func)]
            : List Func).filter (fun f => f.fid ≠ s.nextFn) = [] := by
          simp [List.filter]
        rw [h1, h2, List.append_nil]
      rw [eraseFn]
      show s3.module.filter (fun f => f.fid ≠ s.nextFn) = s.module
      have h2 := hframe.2
      rw [show (functionEntry s.nextFn
          (bindParams s.nextFn fn.proto.params
            { s with symbols := [], nextFn := s.nextFn + 1,
                     module := s.module ++ [⟨s.nextFn, fn.proto.name, fn.proto.params.length, []⟩] })).curFn
          = s.nextFn from rfl] at h2
      rw [h2]
      rw [show (functionEntry s.nextFn
          (bindParams s.nextFn fn.proto.params
            { s with symbols := [], nextFn := s.nextFn + 1,
                     module := s.module ++ [⟨s.nextFn, fn.proto.name, fn.proto.params.length, []⟩] })).module
          = mapFn s.nextFn (fun f => { f with blocks := f.blocks ++ [⟨s.nextBB, "entry", []⟩] })
              (s.module ++ [⟨s.nextFn, fn.proto.name, fn.proto.params.length, []⟩]) from rfl]
      rw [filter_mapFn s.nextFn
            (fun f => { f with blocks := f.blocks ++ [⟨s.nextBB, "entry", []⟩] })
            (fun f => rfl)]
      exact hmod

/-- Witness for C5: `def g() y` — the body fails with an undefined
variable, the half-built `g` is erased, and the module is exactly the
(empty) module from before. -/
theorem C5_witness :
    codegenFunction ⟨⟨"g", []⟩, .ident "y"⟩ initCG
        = (none, eraseFn 0 (errorV "Undefined variable"
            (functionEntry 0 (bindParams 0 []
              { initCG with symbols := [], nextFn := 1, module := [⟨0, "g", 0, []⟩] }))))
    ∧ (eraseFn 0 (errorV "Undefined variable"
        (functionEntry 0 (bindParams 0 []
          { initCG with symbols := [], nextFn := 1,
                        module := [⟨0, "g", 0, []⟩] })))).module = ([] : List Func) := by
  have h := C5_function_lowering.2.2.1 ⟨⟨"g", []⟩, .ident "y"⟩ initCG
    (errorV "Undefined variable"
      (functionEntry 0 (bindParams 0 []
        { initCG with symbols := [], nextFn := 1, module := [⟨0, "g", 0, []⟩] })))
    (Or.inr rfl) (by simp [initCG]) rfl
  exact h

/-! ### Parser metatheory: token consumption and error logging

Every parse outcome consumes tokens monotonically (strictly, for a
successful primary or expression), a successful parse writes nothing to
stderr, and a failed parse appends at least one `Error: `-prefixed
line.  These facts back the driver-level claims. -/

theorem curTok_ne_eof_toks {α : Type} [DecidableEq α] (ps : PState α)
    (h : curTok ps ≠ .eof) : ps.toks.tail.length + 1 = ps.toks.length := by
  cases hps : ps.toks with
  | nil => exact absurd (by rw [curTok, hps] ; rfl) h
  | cons a rest => simp [hps]

/-- The consumption / logging facts for the five expression-parsing
functions, by induction on the fuel. -/
theorem parseMeta :
    ∀ fuel : Nat,
      (∀ (ps : PState ℚ) r ps', parsePrimary fuel ps = some (r, ps') →
          ps'.toks.length ≤ ps.toks.length
          ∧ (∀ e, r = some e → ps'.toks.length < ps.toks.length ∧ ps'.log = ps.log)
          ∧ (r = none → ∃ m, ps'.log = ps.log ++ ["Error: " ++ m]))
      ∧ (∀ (nm : String) (ps : PState ℚ) r ps',
            parseIdentifierExpr nm fuel ps = some (r, ps') →
          ps'.toks.length ≤ ps.toks.length
          ∧ (∀ e, r = some e → ps'.log = ps.log)
          ∧ (r = none → ∃ m, ps'.log = ps.log ++ ["Error: " ++ m]))
      ∧ (∀ (ps : PState ℚ) acc r ps', parseCallArgs fuel ps acc = some (r, ps') →
          ps'.toks.length ≤ ps.toks.length
          ∧ (∀ e, r = some e → ps'.log = ps.log)
          ∧ (r = none → ∃ m, ps'.log = ps.log ++ ["Error: " ++ m]))
      ∧ (∀ (prec : Int) (lhs : Expr ℚ) (ps : PState ℚ) r ps',
            parseBinOpRHS fuel prec lhs ps = some (r, ps') →
          ps'.toks.length ≤ ps.toks.length
          ∧ (∀ e, r = some e → ps'.log = ps.log)
          ∧ (r = none → ∃ m, ps'.log = ps.log ++ ["Error: " ++ m]))
      ∧ (∀ (ps : PState ℚ) r ps', parseExpression fuel ps = some (r, ps') →
          ps'.toks.length ≤ ps.toks.length
          ∧ (∀ e, r = some e → ps'.toks.length < ps.toks.length ∧ ps'.log = ps.log)
          ∧ (r = none → ∃ m, ps'.log = ps.log ++ ["Error: " ++ m])) := by
  intro fuel
  induction fuel with
  | zero =>
      refine ⟨?_, ?_, ?_, ?_, ?_⟩
      · intro ps r ps' h ; rw [parsePrimary] at h ; exact Option.noConfusion h
      · intro nm ps r ps' h ; rw [parseIdentifierExpr] at h ; exact Option.noConfusion h
      · intro ps acc r ps' h ; rw [parseCallArgs] at h ; exact Option.noConfusion h
      · intro prec lhs ps r ps' h ; rw [parseBinOpRHS] at h ; exact Option.noConfusion h
      · intro ps r ps' h ; rw [parseExpression] at h ; exact Option.noConfusion h
  | succ f ih =>
      obtain ⟨ihP, ihI, ihA, ihB, ihE⟩ := ih
      have primPart : ∀ (ps : PState ℚ) r ps', parsePrimary (f+1) ps = some (r, ps') →
          ps'.toks.length ≤ ps.toks.length
          ∧ (∀ e, r = some e → ps'.toks.length < ps.toks.length ∧ ps'.log = ps.log)
          ∧ (r = none → ∃ m, ps'.log = ps.log ++ ["Error: " ++ m]) := by
        intro ps r ps' h
        rw [parsePrimary] at h
        split at h
        · -- identifier
          rename_i s heq
          have hlen := curTok_ne_eof_toks ps (by rw [heq] ; intro hc ; cases hc)
          have hadv : (advance ps).toks.length + 1 = ps.toks.length := hlen
          obtain ⟨h1, h2, h3⟩ := ihI s (advance ps) r ps' h
          refine ⟨by omega, ?_, ?_⟩
          · intro e he
            exact ⟨by omega, h2 e he⟩
          · intro hn
            exact h3 hn
        · -- number
          rename_i v heq
          have hlen := curTok_ne_eof_toks ps (by rw [heq] ; intro hc ; cases hc)
          have hadv : (advance ps).toks.length + 1 = ps.toks.length := hlen
          injection h with h
          injection h with hr hps'
          subst hr ; subst hps'
          exact ⟨by omega, fun e he => ⟨by omega, rfl⟩, fun hn => by cases hn⟩
        · -- punctuation
          rename_i c heq
          have hlen := curTok_ne_eof_toks ps (by rw [heq] ; intro hc ; cases hc)
          have hadv : (advance ps).toks.length + 1 = ps.toks.length := hlen
          split at h
          · -- '('
            split at h
            · exact Option.noConfusion h
            · -- sub-expression failed
              rename_i ps1 heq2
              injection h with h
              injection h with hr hps'
              subst hr ; subst hps'
              obtain ⟨h1, _, h3⟩ := ihE (advance ps) none ps1 heq2
              refine ⟨by omega, ?_, ?_⟩
              · intro e he ; cases he
              · intro _ ; exact h3 rfl
            · -- sub-expression ok, then ')' check
              rename_i e1 ps1 heq2
              obtain ⟨h1, h2, _⟩ := ihE (advance ps) (some e1) ps1 heq2
              obtain ⟨h2a, h2b⟩ := h2 e1 rfl
              split at h
              · injection h with h
                injection h with hr hps'
                subst hr ; subst hps'
                have hps1 : (advance ps1).toks.length = ps1.toks.length - 1 :=
                  List.length_tail _
                refine ⟨by omega, ?_, ?_⟩
                · intro e he ; exact ⟨by omega, h2b⟩
                · intro hn ; cases hn
              · injection h with h
                injection h with hr hps'
                subst hr ; subst hps'
                have hkeep : (logErr "Expected ')'" ps1).toks.length = ps1.toks.length :=
                  rfl
                refine ⟨by omega, ?_, ?_⟩
                · intro e he ; cases he
                · intro _
                  refine ⟨"Expected ')'", ?_⟩
                  rw [show (logErr "Expected ')'" ps1).log
                        = ps1.log ++ ["Error: " ++ "Expected ')'"] from rfl, h2b]
                  rfl
          · -- other punctuation: error
            injection h with h
            injection h with hr hps'
            subst hr ; subst hps'
            refine ⟨Nat.le_refl _, ?_, ?_⟩
            · intro e he ; cases he
            · intro _
              exact ⟨"Unknown token, expecting expr", rfl⟩
        · -- other tokens: error
          injection h with h
          injection h with hr hps'
          subst hr ; subst hps'
          refine ⟨Nat.le_refl _, ?_, ?_⟩
          · intro e he ; cases he
          · intro _
            exact ⟨"Unknown token, expecting expr", rfl⟩
      have identPart : ∀ (nm : String) (ps : PState ℚ) r ps',
          parseIdentifierExpr nm (f+1) ps = some (r, ps') →
          ps'.toks.length ≤ ps.toks.length
          ∧ (∀ e, r = some e → ps'.log = ps.log)
          ∧ (r = none → ∃ m, ps'.log = ps.log ++ ["Error: " ++ m]) := by
        intro nm ps r ps' h
        rw [parseIdentifierExpr] at h
        simp only [] at h
        split at h
        · -- plain identifier: nothing more is consumed
          injection h with h
          injection h with hr hps'
          subst hr ; subst hps'
          refine ⟨Nat.le_refl _, ?_, ?_⟩
          · intro e he ; rfl
          · intro hn ; cases hn
        · -- call form: CurTok = '('
          have t1 : (advance ps).toks.length = ps.toks.length - 1 := List.length_tail _
          split at h
          · -- empty argument list
            injection h with h
            injection h with hr hps'
            subst hr ; subst hps'
            have t2 : (advance (advance ps)).toks.length = (advance ps).toks.length - 1 :=
              List.length_tail _
            refine ⟨by omega, ?_, ?_⟩
            · intro e he ; rfl
            · intro hn ; cases hn
          · -- at least one argument
            split at h
            · exact Option.noConfusion h
            · -- argument loop failed
              rename_i ps2 heq2
              injection h with h
              injection h with hr hps'
              subst hr ; subst hps'
              obtain ⟨h1, _, h3⟩ := ihA (advance ps) [] none ps2 heq2
              refine ⟨by omega, ?_, ?_⟩
              · intro e he ; cases he
              · intro _ ; exact h3 rfl
            · -- argument loop succeeded; consume the ')'
              rename_i args ps2 heq2
              injection h with h
              injection h with hr hps'
              subst hr ; subst hps'
              obtain ⟨h1, h2, _⟩ := ihA (advance ps) [] (some args) ps2 heq2
              have t2 : (advance ps2).toks.length = ps2.toks.length - 1 :=
                List.length_tail _
              refine ⟨by omega, ?_, ?_⟩
              · intro e he ; exact h2 args rfl
              · intro hn ; cases hn
      have argsPart : ∀ (ps : PState ℚ) acc r ps',
          parseCallArgs (f+1) ps acc = some (r, ps') →
          ps'.toks.length ≤ ps.toks.length
          ∧ (∀ e, r = some e → ps'.log = ps.log)
          ∧ (r = none → ∃ m, ps'.log = ps.log ++ ["Error: " ++ m]) := by
        intro ps acc r ps' h
        rw [parseCallArgs] at h
        split at h
        · exact Option.noConfusion h
        · -- the argument expression failed
          rename_i ps1 heq1
          injection h with h
          injection h with hr hps'
          subst hr ; subst hps'
          obtain ⟨h1, _, h3⟩ := ihE ps none ps1 heq1
          refine ⟨h1, ?_, ?_⟩
          · intro e he ; cases he
          · intro _ ; exact h3 rfl
        · -- got an argument
          rename_i arg ps1 heq1
          obtain ⟨h1, h2, _⟩ := ihE ps (some arg) ps1 heq1
          obtain ⟨h2a, h2b⟩ := h2 arg rfl
          split at h
          · -- ')' terminates the loop
            injection h with h
            injection h with hr hps'
            subst hr ; subst hps'
            refine ⟨h1, ?_, ?_⟩
            · intro e he ; exact h2b
            · intro hn ; cases hn
          · split at h
            · -- neither ')' nor ',': error
              injection h with h
              injection h with hr hps'
              subst hr ; subst hps'
              refine ⟨h1, ?_, ?_⟩
              · intro e he ; cases he
              · intro _
                refine ⟨"Expected ',' or ')' in argument list", ?_⟩
                rw [show (logErr "Expected ',' or ')' in argument list" ps1).log
                      = ps1.log ++ ["Error: " ++ "Expected ',' or ')' in argument list"]
                      from rfl, h2b]
            · -- ',': continue the loop
              obtain ⟨h1c, h2c, h3c⟩ := ihA (advance ps1) (acc ++ [arg]) r ps' h
              have t1 : (advance ps1).toks.length = ps1.toks.length - 1 :=
                List.length_tail _
              refine ⟨by omega, ?_, ?_⟩
              · intro e he
                exact (h2c e he).trans h2b
              · intro hn
                obtain ⟨m, hδ⟩ := h3c hn
                refine ⟨m, ?_⟩
                rw [hδ, show (advance ps1).log = ps1.log from rfl, h2b]
      have binPart : ∀ (prec : Int) (lhs : Expr ℚ) (ps : PState ℚ) r ps',
          parseBinOpRHS (f+1) prec lhs ps = some (r, ps') →
          ps'.toks.length ≤ ps.toks.length
          ∧ (∀ e, r = some e → ps'.log = ps.log)
          ∧ (r = none → ∃ m, ps'.log = ps.log ++ ["Error: " ++ m]) := by
        intro prec lhs ps r ps' h
        rw [parseBinOpRHS] at h
        simp only [] at h
        split at h
        · -- precedence too low: return LHS, consume nothing
          injection h with h
          injection h with hr hps'
          subst hr ; subst hps'
          refine ⟨Nat.le_refl _, ?_, ?_⟩
          · intro e he ; rfl
          · intro hn ; cases hn
        · split at h
          · -- operator is a punctuation character
            rename_i c heq
            split at h
            · exact Option.noConfusion h
            · -- RHS primary failed
              rename_i ps1 heq1
              injection h with h
              injection h with hr hps'
              subst hr ; subst hps'
              obtain ⟨h1, _, h3⟩ := ihP (advance ps) none ps1 heq1
              have t1 : (advance ps).toks.length = ps.toks.length - 1 := List.length_tail _
              refine ⟨by omega, ?_, ?_⟩
              · intro e he ; cases he
              · intro _ ; exact h3 rfl
            · -- got the RHS primary
              rename_i rhs ps1 heq1
              obtain ⟨h1, h2, _⟩ := ihP (advance ps) (some rhs) ps1 heq1
              obtain ⟨h2a, h2b⟩ := h2 rhs rfl
              have t1 : (advance ps).toks.length = ps.toks.length - 1 := List.length_tail _
              split at h
              · -- next operator binds tighter: recurse right first
                split at h
                · exact Option.noConfusion h
                · -- right recursion failed
                  rename_i ps2 heq2
                  injection h with h
                  injection h with hr hps'
                  subst hr ; subst hps'
                  obtain ⟨h1b, _, h3b⟩ := ihB (getTokenPrecedence (curTok ps) + 1) rhs ps1 none ps2 heq2
                  refine ⟨by omega, ?_, ?_⟩
                  · intro e he ; cases he
                  · intro _
                    obtain ⟨m, hδ⟩ := h3b rfl
                    refine ⟨m, ?_⟩
                    rw [hδ, h2b] ; rfl
                · -- right recursion succeeded; fold and continue
                  rename_i rhs' ps2 heq2
                  obtain ⟨h1b, h2b2, _⟩ := ihB (getTokenPrecedence (curTok ps) + 1) rhs ps1 (some rhs') ps2 heq2
                  have h2b2' := h2b2 rhs' rfl
                  obtain ⟨h1c, h2c, h3c⟩ := ihB prec (.binary c lhs rhs') ps2 r ps' h
                  refine ⟨by omega, ?_, ?_⟩
                  · intro e he
                    exact ((h2c e he).trans h2b2').trans h2b
                  · intro hn
                    obtain ⟨m, hδ⟩ := h3c hn
                    refine ⟨m, ?_⟩
                    rw [hδ, h2b2', h2b] ; rfl
              · -- fold immediately and continue at the same precedence
                obtain ⟨h1c, h2c, h3c⟩ := ihB prec (.binary c lhs rhs) ps1 r ps' h
                refine ⟨by omega, ?_, ?_⟩
                · intro e he
                  exact (h2c e he).trans h2b
                · intro hn
                  obtain ⟨m, hδ⟩ := h3c hn
                  refine ⟨m, ?_⟩
                  rw [hδ, h2b] ; rfl
          · -- non-punctuation operator (defensively returns LHS)
            injection h with h
            injection h with hr hps'
            subst hr ; subst hps'
            refine ⟨Nat.le_refl _, ?_, ?_⟩
            · intro e he ; rfl
            · intro hn ; cases hn
      have exprPart : ∀ (ps : PState ℚ) r ps',
          parseExpression (f+1) ps = some (r, ps') →
          ps'.toks.length ≤ ps.toks.length
          ∧ (∀ e, r = some e → ps'.toks.length < ps.toks.length ∧ ps'.log = ps.log)
          ∧ (r = none → ∃ m, ps'.log = ps.log ++ ["Error: " ++ m]) := by
        intro ps r ps' h
        rw [parseExpression] at h
        split at h
        · exact Option.noConfusion h
        · -- the primary failed
          rename_i ps1 heq1
          injection h with h
          injection h with hr hps'
          subst hr ; subst hps'
          obtain ⟨h1, _, h3⟩ := ihP ps none ps1 heq1
          refine ⟨h1, ?_, ?_⟩
          · intro e he ; cases he
          · intro _ ; exact h3 rfl
        · -- primary ok; fold operators
          rename_i lhs ps1 heq1
          obtain ⟨h1, h2, _⟩ := ihP ps (some lhs) ps1 heq1
          obtain ⟨h2a, h2b⟩ := h2 lhs rfl
          obtain ⟨h1b, h2c, h3c⟩ := ihB 0 lhs ps1 r ps' h
          refine ⟨by omega, ?_, ?_⟩
          · intro e he
            exact ⟨by omega, (h2c e he).trans h2b⟩
          · intro hn
            obtain ⟨m, hδ⟩ := h3c hn
            refine ⟨m, ?_⟩
            rw [hδ, h2b]
      exact ⟨primPart, identPart, argsPart, binPart, exprPart⟩

/-- Linear fuel bounds under which none of the expression parsers runs
out of fuel, by induction on the fuel. -/
theorem parseSuff :
    ∀ fuel : Nat,
      (∀ ps : PState ℚ, 4 * ps.toks.length + 4 ≤ fuel →
        (parsePrimary fuel ps).isSome = true)
      ∧ (∀ (nm : String) (ps : PState ℚ), 4 * ps.toks.length + 7 ≤ fuel →
        (parseIdentifierExpr nm fuel ps).isSome = true)
      ∧ (∀ (ps : PState ℚ) (acc : List (Expr ℚ)), 4 * ps.toks.length + 10 ≤ fuel →
        (parseCallArgs fuel ps acc).isSome = true)
      ∧ (∀ (prec : Int) (lhs : Expr ℚ) (ps : PState ℚ), 4 * ps.toks.length + 1 ≤ fuel →
        (parseBinOpRHS fuel prec lhs ps).isSome = true)
      ∧ (∀ ps : PState ℚ, 4 * ps.toks.length + 5 ≤ fuel →
        (parseExpression fuel ps).isSome = true) := by
  intro fuel
  induction fuel with
  | zero =>
      refine ⟨?_, ?_, ?_, ?_, ?_⟩
      · intro ps hf ; omega
      · intro nm ps hf ; omega
      · intro ps acc hf ; omega
      · intro prec lhs ps hf ; omega
      · intro ps hf ; omega
  | succ f ih =>
      obtain ⟨ihP, ihI, ihA, ihB, ihE⟩ := ih
      have primPart : ∀ ps : PState ℚ, 4 * ps.toks.length + 4 ≤ f + 1 →
          (parsePrimary (f+1) ps).isSome = true := by
        intro ps hf
        rw [parsePrimary]
        split
        · rename_i s heq
          have hadv : (advance ps).toks.length + 1 = ps.toks.length :=
            curTok_ne_eof_toks ps (by rw [heq] ; intro hc ; cases hc)
          exact ihI s (advance ps) (by omega)
        · rfl
        · rename_i c heq
          have hadv : (advance ps).toks.length + 1 = ps.toks.length :=
            curTok_ne_eof_toks ps (by rw [heq] ; intro hc ; cases hc)
          split
          · rcases hE : parseExpression f (advance ps) with _ | ⟨r1, ps1⟩
            · have hsub := ihE (advance ps) (by omega)
              rw [hE] at hsub ; simp at hsub
            · rcases r1 with _ | e1
              · rfl
              · dsimp only
                split <;> rfl
          · rfl
        · rfl
      have identPart : ∀ (nm : String) (ps : PState ℚ), 4 * ps.toks.length + 7 ≤ f + 1 →
          (parseIdentifierExpr nm (f+1) ps).isSome = true := by
        intro nm ps hf
        rw [parseIdentifierExpr]
        simp only []
        split
        · rfl
        · rename_i hpar
          have hct : curTok ps = .punct '(' := not_not.mp hpar
          have hadv : (advance ps).toks.length + 1 = ps.toks.length :=
            curTok_ne_eof_toks ps (by rw [hct] ; intro hc ; cases hc)
          split
          · rfl
          · rcases hA : parseCallArgs f (advance ps) [] with _ | ⟨r1, ps2⟩
            · have hsub := ihA (advance ps) [] (by omega)
              rw [hA] at hsub ; simp at hsub
            · rcases r1 with _ | args <;> rfl
      have argsPart : ∀ (ps : PState ℚ) (acc : List (Expr ℚ)),
          4 * ps.toks.length + 10 ≤ f + 1 →
          (parseCallArgs (f+1) ps acc).isSome = true := by
        intro ps acc hf
        rw [parseCallArgs]
        rcases hE : parseExpression f ps with _ | ⟨r1, ps1⟩
        · have hsub := ihE ps (by omega)
          rw [hE] at hsub ; simp at hsub
        · rcases r1 with _ | arg
          · rfl
          · have hmeta := ((parseMeta f).2.2.2.2 ps (some arg) ps1 hE).2.1 arg rfl
            have t1 : (advance ps1).toks.length = ps1.toks.length - 1 :=
              List.length_tail _
            dsimp only
            split
            · rfl
            · split
              · rfl
              · exact ihA (advance ps1) (acc ++ [arg]) (by omega)
      have binPart : ∀ (prec : Int) (lhs : Expr ℚ) (ps : PState ℚ),
          4 * ps.toks.length + 1 ≤ f + 1 →
          (parseBinOpRHS (f+1) prec lhs ps).isSome = true := by
        intro prec lhs ps hf
        rw [parseBinOpRHS]
        simp only []
        split
        · rfl
        · split
          · rename_i c heq
            have hadv : (advance ps).toks.length + 1 = ps.toks.length :=
              curTok_ne_eof_toks ps (by rw [heq] ; intro hc ; cases hc)
            rcases hP : parsePrimary f (advance ps) with _ | ⟨r1, ps1⟩
            · have hsub := ihP (advance ps) (by omega)
              rw [hP] at hsub ; simp at hsub
            · rcases r1 with _ | rhs
              · rfl
              · have h1 := ((parseMeta f).1 (advance ps) (some rhs) ps1 hP).1
                dsimp only
                split
                · rcases hB : parseBinOpRHS f (getTokenPrecedence (curTok ps) + 1) rhs ps1
                      with _ | ⟨r2, ps2⟩
                  · have hsub2 := ihB (getTokenPrecedence (curTok ps) + 1) rhs ps1 (by omega)
                    rw [hB] at hsub2 ; simp at hsub2
                  · rcases r2 with _ | rhs2
                    · rfl
                    · have h2 := ((parseMeta f).2.2.2.1 _ rhs ps1 (some rhs2) ps2 hB).1
                      exact ihB prec (.binary c lhs rhs2) ps2 (by omega)
                · exact ihB prec (.binary c lhs rhs) ps1 (by omega)
          · rfl
      have exprPart : ∀ ps : PState ℚ, 4 * ps.toks.length + 5 ≤ f + 1 →
          (parseExpression (f+1) ps).isSome = true := by
        intro ps hf
        rw [parseExpression]
        rcases hP : parsePrimary f ps with _ | ⟨r1, ps1⟩
        · have hsub := ihP ps (by omega)
          rw [hP] at hsub ; simp at hsub
        · rcases r1 with _ | lhs
          · rfl
          · have h1 := ((parseMeta f).1 ps (some lhs) ps1 hP).2.1 lhs rfl
            exact ihB 0 lhs ps1 (by omega)
      exact ⟨primPart, identPart, argsPart, binPart, exprPart⟩

/-! ### The driver (src/runloop.cpp)

`RunLoop` repeatedly dispatches on `CurTok`: `tok_eof` returns, `';'`
is consumed, `tok_def` / `tok_extern` / anything else go to the three
handlers.  A handler calls `getNextToken()` only when the *parse*
failed (the `else` of the outer `if`); a form that parses but fails
codegen leaves the token stream exactly where the parse ended. -/

/-- Fuel that (provably) never runs out for a top-level parse. -/
def parseFuel (ps : PState ℚ) : Nat := 4 * ps.toks.length + 20

/-- `HandleTopLevelExpression`. -/
def handleTopLevelExpression (st : PState ℚ × CG) : PState ℚ × CG :=
  match parseTopLevelExpr (parseFuel st.1) st.1 with
  | none => st
  | some (none, ps1) => (advance ps1, st.2)
  | some (some fn, ps1) =>
      match codegenFunction fn st.2 with
      | (none, cg1) => (ps1, cg1)
      | (some _, cg1) => (ps1, cg1)

/-- `HandleFunction`. -/
def handleFunction (st : PState ℚ × CG) : PState ℚ × CG :=
  match parseFunction (parseFuel st.1) st.1 with
  | none => st
  | some (none, ps1) => (advance ps1, st.2)
  | some (some fn, ps1) =>
      match codegenFunction fn st.2 with
      | (none, cg1) => (ps1, cg1)
      | (some _, cg1) => (ps1, cg1)

/-- `HandleExtern`. -/
def handleExternDecl (st : PState ℚ × CG) : PState ℚ × CG :=
  match parseExternDecl st.1 with
  | (none, ps1) => (advance ps1, st.2)
  | (some proto, ps1) => (ps1, (codegenProto proto st.2).2)

/-- One iteration of the `while (true)` switch in `RunLoop` (for a
non-`tok_eof` current token). -/
def runStep (st : PState ℚ × CG) : PState ℚ × CG :=
  if curTok st.1 = .punct ';' then (advance st.1, st.2)
  else if curTok st.1 = .kwDef then handleFunction st
  else if curTok st.1 = .kwExternDecl then handleExternDecl st
  else handleTopLevelExpression st

/-- `RunLoop`, with an explicit iteration bound; `none` means the bound
was hit (shown below never to happen with bound `#tokens + 1`). -/
def runLoop : Nat → (PState ℚ × CG) → Option (PState ℚ × CG)
  | 0, _ => none
  | n+1, st => if curTok st.1 = .eof then some st else runLoop n (runStep st)

theorem advance_len_le {α : Type} [DecidableEq α] (ps : PState α) :
    (advance ps).toks.length ≤ ps.toks.length := by
  have t : (advance ps).toks.length = ps.toks.length - 1 := List.length_tail _
  omega

theorem protoParams_len {α : Type} [DecidableEq α] :
    ∀ ts : List (Tok α), (protoParams ts).2.length ≤ ts.length := by
  intro ts
  induction ts with
  | nil => simp [protoParams]
  | cons t rest ih =>
      cases t <;> simp [protoParams] <;> omega

/-- Consumption / logging facts for `ParsePrototype`. -/
theorem protoMeta {α : Type} [DecidableEq α] (ps : PState α) (r : Option Prototype)
    (ps' : PState α) (h : parsePrototype ps = (r, ps')) :
    ps'.toks.length ≤ ps.toks.length
    ∧ (∀ p, r = some p → ps'.log = ps.log)
    ∧ (r = none → ∃ m, ps'.log = ps.log ++ ["Error: " ++ m]) := by
  rw [parsePrototype] at h
  split at h
  · -- identifier
    rename_i name heq
    simp only [] at h
    have hlen := curTok_ne_eof_toks ps (by rw [heq] ; intro hc ; cases hc)
    split at h
    · -- no '(': error
      injection h with hr hps'
      subst hr ; subst hps'
      have t1 : (logErr "Expected '(' in prototype" (advance ps)).toks.length
          = ps.toks.tail.length := rfl
      refine ⟨by omega, ?_, ?_⟩
      · intro p hp ; cases hp
      · intro _ ; exact ⟨"Expected '(' in prototype", rfl⟩
    · split at h
      · -- no ')': error
        injection h with hr hps'
        subst hr ; subst hps'
        refine ⟨le_trans (protoParams_len _)
          (le_trans (advance_len_le _) (advance_len_le _)), ?_, ?_⟩
        · intro p hp ; cases hp
        · intro _ ; exact ⟨"Expected ')' in prototype", rfl⟩
      · -- success
        injection h with hr hps'
        subst hr ; subst hps'
        refine ⟨le_trans (advance_len_le _) (le_trans (protoParams_len _)
          (le_trans (advance_len_le _) (advance_len_le _))), ?_, ?_⟩
        · intro p hp ; rfl
        · intro hn ; cases hn
  · -- not an identifier: error
    injection h with hr hps'
    subst hr ; subst hps'
    refine ⟨Nat.le_refl _, ?_, ?_⟩
    · intro p hp ; cases hp
    · intro _ ; exact ⟨"Expected function name in prototype", rfl⟩

/-- Consumption / logging facts for `ParseFunction`. -/
theorem funcMeta (fuel : Nat) (ps : PState ℚ) (r : Option (FunctionAST ℚ))
    (ps' : PState ℚ) (h : parseFunction fuel ps = some (r, ps')) :
    ps'.toks.length ≤ ps.toks.tail.length
    ∧ (∀ fn, r = some fn → ps'.log = ps.log)
    ∧ (r = none → ∃ m, ps'.log = ps.log ++ ["Error: " ++ m]) := by
  match fuel with
  | 0 => rw [parseFunction] at h ; exact Option.noConfusion h
  | f+1 =>
    rw [parseFunction] at h
    split at h
    · -- prototype failed
      rename_i ps1 heq
      injection h with h
      injection h with hr hps'
      subst hr ; subst hps'
      obtain ⟨h1, _, h3⟩ := protoMeta (advance ps) none ps1 heq
      refine ⟨h1, ?_, ?_⟩
      · intro fn hfn ; cases hfn
      · intro _ ; exact h3 rfl
    · -- prototype ok; body
      rename_i proto ps1 heq
      obtain ⟨h1, h2, _⟩ := protoMeta (advance ps) (some proto) ps1 heq
      have h2' := h2 proto rfl
      split at h
      · exact Option.noConfusion h
      · -- body failed
        rename_i ps2 heq2
        injection h with h
        injection h with hr hps'
        subst hr ; subst hps'
        obtain ⟨hb1, _, hb3⟩ := (parseMeta f).2.2.2.2 ps1 none ps2 heq2
        have t0 : (advance ps).toks.length = ps.toks.tail.length := rfl
        refine ⟨by omega, ?_, ?_⟩
        · intro fn hfn ; cases hfn
        · intro _
          obtain ⟨m, hm⟩ := hb3 rfl
          refine ⟨m, ?_⟩
          rw [hm, h2'] ; rfl
      · -- body ok
        rename_i body ps2 heq2
        injection h with h
        injection h with hr hps'
        subst hr ; subst hps'
        obtain ⟨hb1, hb2, _⟩ := (parseMeta f).2.2.2.2 ps1 (some body) ps2 heq2
        obtain ⟨_, hb2b⟩ := hb2 body rfl
        have t0 : (advance ps).toks.length = ps.toks.tail.length := rfl
        refine ⟨by omega, ?_, ?_⟩
        · intro fn hfn ; exact hb2b.trans h2'
        · intro hn ; cases hn

/-- Consumption / logging facts for `ParseTopLevelExpr`. -/
theorem topMeta (fuel : Nat) (ps : PState ℚ) (r : Option (FunctionAST ℚ))
    (ps' : PState ℚ) (h : parseTopLevelExpr fuel ps = some (r, ps')) :
    ps'.toks.length ≤ ps.toks.length
    ∧ (∀ fn, r = some fn → ps'.toks.length < ps.toks.length ∧ ps'.log = ps.log)
    ∧ (r = none → ∃ m, ps'.log = ps.log ++ ["Error: " ++ m]) := by
  match fuel with
  | 0 => rw [parseTopLevelExpr] at h ; exact Option.noConfusion h
  | f+1 =>
    rw [parseTopLevelExpr] at h
    split at h
    · exact Option.noConfusion h
    · rename_i ps1 heq
      injection h with h
      injection h with hr hps'
      subst hr ; subst hps'
      obtain ⟨h1, _, h3⟩ := (parseMeta f).2.2.2.2 ps none ps1 heq
      refine ⟨h1, ?_, ?_⟩
      · intro fn hfn ; cases hfn
      · intro _ ; exact h3 rfl
    · rename_i e ps1 heq
      injection h with h
      injection h with hr hps'
      subst hr ; subst hps'
      obtain ⟨h1, h2, _⟩ := (parseMeta f).2.2.2.2 ps (some e) ps1 heq
      refine ⟨h1, ?_, ?_⟩
      · intro fn hfn ; exact h2 e rfl
      · intro hn ; cases hn

theorem parseFunction_isSome (ps : PState ℚ) :
    (parseFunction (parseFuel ps) ps).isSome = true := by
  have hPF : parseFuel ps = (4 * ps.toks.length + 19) + 1 := rfl
  rw [hPF, parseFunction]
  split
  · rfl
  · rename_i proto ps1 heq
    split
    · rename_i heq2
      obtain ⟨hp1, _, _⟩ := protoMeta (advance ps) (some proto) ps1 heq
      have t1 : (advance ps).toks.length = ps.toks.length - 1 := List.length_tail _
      have hsub := (parseSuff (4 * ps.toks.length + 19)).2.2.2.2 ps1 (by omega)
      rw [heq2] at hsub ; simp at hsub
    · rfl
    · rfl

theorem parseTopLevelExpr_isSome (ps : PState ℚ) :
    (parseTopLevelExpr (parseFuel ps) ps).isSome = true := by
  have hPF : parseFuel ps = (4 * ps.toks.length + 19) + 1 := rfl
  rw [hPF, parseTopLevelExpr]
  split
  · rename_i heq
    have hsub := (parseSuff (4 * ps.toks.length + 19)).2.2.2.2 ps (by omega)
    rw [heq] at hsub ; simp at hsub
  · rfl
  · rfl

/-- Each non-`eof` iteration of the driver loop strictly shrinks the
token stream. -/
theorem runStep_decrease (st : PState ℚ × CG) (h : curTok st.1 ≠ .eof) :
    (runStep st).1.toks.length < st.1.toks.length := by
  have hlen := curTok_ne_eof_toks st.1 h
  rw [runStep]
  split
  · -- ';'
    have t1 : (advance st.1).toks.length = st.1.toks.tail.length := rfl
    show (advance st.1).toks.length < st.1.toks.length
    omega
  · split
    · -- def
      unfold handleFunction
      split
      · rename_i heq
        have hsub := parseFunction_isSome st.1
        rw [heq] at hsub ; simp at hsub
      · rename_i ps1 heq
        obtain ⟨h1, _, _⟩ := funcMeta (parseFuel st.1) st.1 none ps1 heq
        have t1 : (advance ps1).toks.length = ps1.toks.length - 1 := List.length_tail _
        show (advance ps1).toks.length < st.1.toks.length
        omega
      · rename_i fn ps1 heq
        obtain ⟨h1, _, _⟩ := funcMeta (parseFuel st.1) st.1 (some fn) ps1 heq
        split
        · show ps1.toks.length < st.1.toks.length ; omega
        · show ps1.toks.length < st.1.toks.length ; omega
    · split
      · -- extern
        unfold handleExternDecl
        split
        · rename_i ps1 heq
          obtain ⟨h1, _, _⟩ := protoMeta (advance st.1) none ps1 heq
          have t0 : (advance st.1).toks.length = st.1.toks.tail.length := rfl
          have t1 : (advance ps1).toks.length = ps1.toks.length - 1 := List.length_tail _
          show (advance ps1).toks.length < st.1.toks.length
          omega
        · rename_i proto ps1 heq
          obtain ⟨h1, _, _⟩ := protoMeta (advance st.1) (some proto) ps1 heq
          have t0 : (advance st.1).toks.length = st.1.toks.tail.length := rfl
          show ps1.toks.length < st.1.toks.length
          omega
      · -- default: top-level expression
        unfold handleTopLevelExpression
        split
        · rename_i heq
          have hsub := parseTopLevelExpr_isSome st.1
          rw [heq] at hsub ; simp at hsub
        · rename_i ps1 heq
          obtain ⟨h1, _, _⟩ := topMeta (parseFuel st.1) st.1 none ps1 heq
          have t1 : (advance ps1).toks.length = ps1.toks.length - 1 := List.length_tail _
          show (advance ps1).toks.length < st.1.toks.length
          omega
        · rename_i fn ps1 heq
          obtain ⟨_, h2, _⟩ := topMeta (parseFuel st.1) st.1 (some fn) ps1 heq
          obtain ⟨h2a, _⟩ := h2 fn rfl
          split
          · show ps1.toks.length < st.1.toks.length ; omega
          · show ps1.toks.length < st.1.toks.length ; omega

/-- With bound `#tokens + 1` the driver loop always reaches `tok_eof`
and returns. -/
theorem runLoop_total :
    ∀ (n : Nat) (st : PState ℚ × CG), st.1.toks.length < n →
      ∃ st', runLoop n st = some st' ∧ curTok st'.1 = .eof := by
  intro n
  induction n with
  | zero => intro st h ; omega
  | succ k ih =>
      intro st h
      rw [runLoop]
      by_cases he : curTok st.1 = .eof
      · rw [if_pos he] ; exact ⟨st, rfl, he⟩
      · rw [if_neg he]
        exact ih (runStep st) (by have := runStep_decrease st he ; omega)

/-- C7 [corrected]: failing productions return the null sentinel after
writing a single `Error: <message>` line to stderr (shown for
`ParseTopLevelExpr` and `ParseFunction`); at the driver level a
*parse*-failed top-level form advances the token stream by exactly one
extra token (`getNextToken()` in the handler's `else`), but — contrary
to the claim's "every failed top-level form" — a form that parses and
then fails in codegen does *not* advance: the handler's `else` belongs
to the outer (parse) `if` only.  No error ends the driver loop: with
bound `#tokens + 1` the loop always runs to a state whose current token
is `tok_eof`, and only that return ends it. -/
theorem C7_error_propagation_and_driver_advance :
    (∀ (fuel : Nat) (ps ps1 : PState ℚ), parseTopLevelExpr fuel ps = some (none, ps1) →
        ∃ m, ps1.log = ps.log ++ ["Error: " ++ m])
    ∧ (∀ (fuel : Nat) (ps ps1 : PState ℚ), parseFunction fuel ps = some (none, ps1) →
        ∃ m, ps1.log = ps.log ++ ["Error: " ++ m])
    ∧ (∀ (st : PState ℚ × CG) (ps1 : PState ℚ),
        parseTopLevelExpr (parseFuel st.1) st.1 = some (none, ps1) →
        handleTopLevelExpression st = (advance ps1, st.2))
    ∧ (∀ (st : PState ℚ × CG) (fn : FunctionAST ℚ) (ps1 : PState ℚ) (cg1 : CG),
        parseTopLevelExpr (parseFuel st.1) st.1 = some (some fn, ps1) →
        codegenFunction fn st.2 = (none, cg1) →
        handleTopLevelExpression st = (ps1, cg1))
    ∧ (∀ st : PState ℚ × CG, ∃ st',
        runLoop (st.1.toks.length + 1) st = some st' ∧ curTok st'.1 = .eof) := by
  refine ⟨?_, ?_, ?_, ?_, ?_⟩
  · intro fuel ps ps1 h
    exact (topMeta fuel ps none ps1 h).2.2 rfl
  · intro fuel ps ps1 h
    exact (funcMeta fuel ps none ps1 h).2.2 rfl
  · intro st ps1 h
    unfold handleTopLevelExpression
    rw [h]
  · intro st fn ps1 cg1 h hcg
    unfold handleTopLevelExpression
    rw [h]
    show (match codegenFunction fn st.2 with
          | (none, cg1) => (ps1, cg1)
          | (some _, cg1) => (ps1, cg1)) = (ps1, cg1)
    rw [hcg]
  · intro st
    exact runLoop_total (st.1.toks.length + 1) st (by omega)

/-- The lowering-failure scenario for input `y`: the top-level form *is*
parsed (so the handler's `else` is skipped), its codegen fails with
"Error: Undefined variable", and the token stream stays exactly where
the parse ended (`[tok_eof]`) — it is *not* advanced by one token as
the claim asserts for every failed form (that would leave `[]`). -/
theorem C7_counterexample :
    parseTopLevelExpr (parseFuel (⟨[.ident "y", .eof], []⟩ : PState ℚ))
        (⟨[.ident "y", .eof], []⟩ : PState ℚ)
      = some (some ⟨⟨"", []⟩, .ident "y"⟩, ⟨[.eof], []⟩)
    ∧ (handleTopLevelExpression ((⟨[.ident "y", .eof], []⟩ : PState ℚ), initCG)).2.errors
      = ["Error: " ++ "Undefined variable"]
    ∧ (handleTopLevelExpression ((⟨[.ident "y", .eof], []⟩ : PState ℚ), initCG)).1.toks
      = [Tok.eof]
    ∧ advance (⟨[Tok.eof], []⟩ : PState ℚ) ≠ (⟨[Tok.eof], []⟩ : PState ℚ) :=
  ⟨rfl, rfl, rfl, by decide⟩

theorem C7_witness :
    handleTopLevelExpression ((⟨[Tok.punct ')', Tok.eof], []⟩ : PState ℚ), initCG)
      = (advance (⟨[Tok.punct ')', Tok.eof],
          ["Error: " ++ "Unknown token, expecting expr"]⟩ : PState ℚ), initCG)
    ∧ (∃ st', runLoop 3 ((⟨[Tok.ident "y", Tok.eof], []⟩ : PState ℚ), initCG) = some st'
        ∧ curTok st'.1 = Tok.eof) := by
  refine ⟨?_, ?_⟩
  · exact C7_error_propagation_and_driver_advance.2.2.1
      ((⟨[Tok.punct ')', Tok.eof], []⟩ : PState ℚ), initCG)
      ⟨[Tok.punct ')', Tok.eof], ["Error: " ++ "Unknown token, expecting expr"]⟩ rfl
  · exact C7_error_propagation_and_driver_advance.2.2.2.2
      ((⟨[Tok.ident "y", Tok.eof], []⟩ : PState ℚ), initCG)

/-- C8 [confirmed]: the lexer is total — for every finite character
sequence, repeatedly calling `gettok` yields a finite token stream whose
final (and only) `tok_eof` is its last element, whatever the content
(comments, whitespace, malformed numbers, arbitrary punctuation). -/
theorem C8_lexer_totality :
    ∀ input : List Char,
      ∃ l : List LToken, tokenize (initLex input) = l ++ [.eof] ∧ .eof ∉ l := by
  intro input
  exact tokenize_ends_in_eof (lexMeasure (initLex input)) (initLex input) (Nat.le_refl _)

/-! ### Operator characters of parser-produced trees -/

mutual

/-- Every `Binary` node of the tree carries one of the five installed
operator characters. -/
def goodOps {α : Type} : Expr α → Prop
  | .num _ => True
  | .ident _ => True
  | .binary op l r => op ∈ ops5 ∧ goodOps l ∧ goodOps r
  | .call _ args => goodOpsList args
  | .ifExpr c t e => goodOps c ∧ goodOps t ∧ goodOps e

def goodOpsList {α : Type} : List (Expr α) → Prop
  | [] => True
  | e :: rest => goodOps e ∧ goodOpsList rest

end

theorem goodOpsList_append {α : Type} :
    ∀ (a : List (Expr α)) (e : Expr α), goodOpsList a → goodOps e →
      goodOpsList (a ++ [e]) := by
  intro a
  induction a with
  | nil => intro e _ hg ; exact ⟨hg, trivial⟩
  | cons x rest ih =>
      intro e hxs hg
      obtain ⟨hx, hrest⟩ := hxs
      exact ⟨hx, ih e hrest hg⟩

/-- A punctuation token whose `GetTokenPrecedence` is non-negative is one
of the five installed operators (every other `std::map` lookup
default-constructs `0` and is mapped to `-1`). -/
theorem punct_prec_mem {α : Type} [DecidableEq α] (c : Char)
    (h : 0 ≤ getTokenPrecedence (Tok.punct c : Tok α)) : c ∈ ops5 := by
  simp only [getTokenPrecedence] at h
  split at h
  · omega
  · split at h
    · omega
    · rename_i _ hpos
      unfold binOpPrecedence at hpos
      split at hpos
      · rename_i hc ; subst hc ; simp [ops5]
      · split at hpos
        · rename_i hc ; subst hc ; simp [ops5]
        · split at hpos
          · rename_i hc ; subst hc ; simp [ops5]
          · split at hpos
            · rename_i hc ; subst hc ; simp [ops5]
            · split at hpos
              · rename_i hc ; subst hc ; simp [ops5]
              · omega

/-- Every tree the parser returns satisfies `goodOps`: `ParseBinOpRHS`
only folds a `BinaryExprNode` for a current token with positive table
precedence (its `ExprPrec` argument is never negative along real calls),
by induction on the fuel. -/
theorem parseGood :
    ∀ fuel : Nat,
      (∀ (ps : PState ℚ) (e : Expr ℚ) ps', parsePrimary fuel ps = some (some e, ps') →
        goodOps e)
      ∧ (∀ (nm : String) (ps : PState ℚ) (e : Expr ℚ) ps',
          parseIdentifierExpr nm fuel ps = some (some e, ps') → goodOps e)
      ∧ (∀ (ps : PState ℚ) (acc args : List (Expr ℚ)) ps',
          parseCallArgs fuel ps acc = some (some args, ps') → goodOpsList acc →
          goodOpsList args)
      ∧ (∀ (prec : Int) (lhs : Expr ℚ) (ps : PState ℚ) (e : Expr ℚ) ps',
          0 ≤ prec → goodOps lhs → parseBinOpRHS fuel prec lhs ps = some (some e, ps') →
          goodOps e)
      ∧ (∀ (ps : PState ℚ) (e : Expr ℚ) ps', parseExpression fuel ps = some (some e, ps') →
          goodOps e) := by
  intro fuel
  induction fuel with
  | zero =>
      refine ⟨?_, ?_, ?_, ?_, ?_⟩
      · intro ps e ps' h ; rw [parsePrimary] at h ; exact Option.noConfusion h
      · intro nm ps e ps' h ; rw [parseIdentifierExpr] at h ; exact Option.noConfusion h
      · intro ps acc args ps' h _ ; rw [parseCallArgs] at h ; exact Option.noConfusion h
      · intro prec lhs ps e ps' _ _ h ; rw [parseBinOpRHS] at h ; exact Option.noConfusion h
      · intro ps e ps' h ; rw [parseExpression] at h ; exact Option.noConfusion h
  | succ f ih =>
      obtain ⟨ihP, ihI, ihA, ihB, ihE⟩ := ih
      have primPart : ∀ (ps : PState ℚ) (e : Expr ℚ) ps',
          parsePrimary (f+1) ps = some (some e, ps') → goodOps e := by
        intro ps e ps' h
        rw [parsePrimary] at h
        split at h
        · exact ihI _ _ _ _ h
        · injection h with h
          injection h with hr _
          injection hr with hr
          subst hr ; trivial
        · split at h
          · split at h
            · exact Option.noConfusion h
            · injection h with h
              injection h with hr _
              exact Option.noConfusion hr
            · rename_i e1 ps1 heq
              split at h
              · injection h with h
                injection h with hr _
                injection hr with hr
                subst hr
                exact ihE _ _ _ heq
              · injection h with h
                injection h with hr _
                exact Option.noConfusion hr
          · injection h with h
            injection h with hr _
            exact Option.noConfusion hr
        · injection h with h
          injection h with hr _
          exact Option.noConfusion hr
      have identPart : ∀ (nm : String) (ps : PState ℚ) (e : Expr ℚ) ps',
          parseIdentifierExpr nm (f+1) ps = some (some e, ps') → goodOps e := by
        intro nm ps e ps' h
        rw [parseIdentifierExpr] at h
        simp only [] at h
        split at h
        · injection h with h
          injection h with hr _
          injection hr with hr
          subst hr ; trivial
        · split at h
          · injection h with h
            injection h with hr _
            injection hr with hr
            subst hr ; exact trivial
          · split at h
            · exact Option.noConfusion h
            · injection h with h
              injection h with hr _
              exact Option.noConfusion hr
            · rename_i args ps2 heq
              injection h with h
              injection h with hr _
              injection hr with hr
              subst hr
              exact ihA _ [] args _ heq trivial
      have argsPart : ∀ (ps : PState ℚ) (acc args : List (Expr ℚ)) ps',
          parseCallArgs (f+1) ps acc = some (some args, ps') → goodOpsList acc →
          goodOpsList args := by
        intro ps acc args ps' h hacc
        rw [parseCallArgs] at h
        split at h
        · exact Option.noConfusion h
        · injection h with h
          injection h with hr _
          exact Option.noConfusion hr
        · rename_i arg ps1 heq
          have harg : goodOps arg := ihE _ _ _ heq
          split at h
          · injection h with h
            injection h with hr _
            injection hr with hr
            subst hr
            exact goodOpsList_append acc arg hacc harg
          · split at h
            · injection h with h
              injection h with hr _
              exact Option.noConfusion hr
            · exact ihA _ (acc ++ [arg]) args _ h
                (goodOpsList_append acc arg hacc harg)
      have binPart : ∀ (prec : Int) (lhs : Expr ℚ) (ps : PState ℚ) (e : Expr ℚ) ps',
          0 ≤ prec → goodOps lhs →
          parseBinOpRHS (f+1) prec lhs ps = some (some e, ps') → goodOps e := by
        intro prec lhs ps e ps' hprec hlhs h
        rw [parseBinOpRHS] at h
        simp only [] at h
        split at h
        · injection h with h
          injection h with hr _
          injection hr with hr
          subst hr ; exact hlhs
        · rename_i hge
          split at h
          · rename_i c heq
            have hcmem : c ∈ ops5 := by
              refine @punct_prec_mem ℚ _ c ?_
              rw [← heq]
              omega
            split at h
            · exact Option.noConfusion h
            · injection h with h
              injection h with hr _
              exact Option.noConfusion hr
            · rename_i rhs ps1 heq1
              have hrhs : goodOps rhs := ihP _ _ _ heq1
              split at h
              · split at h
                · exact Option.noConfusion h
                · injection h with h
                  injection h with hr _
                  exact Option.noConfusion hr
                · rename_i rhs2 ps2 heq2
                  have hrhs2 : goodOps rhs2 :=
                    ihB (getTokenPrecedence (curTok ps) + 1) rhs ps1 rhs2 ps2
                      (by omega) hrhs heq2
                  exact ihB prec (.binary c lhs rhs2) ps2 e ps' hprec
                    ⟨hcmem, hlhs, hrhs2⟩ h
              · exact ihB prec (.binary c lhs rhs) ps1 e ps' hprec
                  ⟨hcmem, hlhs, hrhs⟩ h
          · injection h with h
            injection h with hr _
            injection hr with hr
            subst hr ; exact hlhs
      have exprPart : ∀ (ps : PState ℚ) (e : Expr ℚ) ps',
          parseExpression (f+1) ps = some (some e, ps') → goodOps e := by
        intro ps e ps' h
        rw [parseExpression] at h
        split at h
        · exact Option.noConfusion h
        · injection h with h
          injection h with hr _
          exact Option.noConfusion hr
        · rename_i lhs ps1 heq
          exact ihB 0 lhs ps1 e ps' (by omega) (ihP _ _ _ heq) h
      exact ⟨primPart, identPart, argsPart, binPart, exprPart⟩

/-- The diagnostic of the default branch of `BinaryExprNode::Codegen`,
as spelled in src/ast.cpp. -/
def unsupMsg : String := "Error: " ++ "Unspported binary operator"

/-- `p` contains the unsupported-operator diagnostic only if `base`
already did. -/
def noUnsup (base p : CG) : Prop :=
  unsupMsg ∈ p.errors → unsupMsg ∈ base.errors

theorem noUnsup_refl (s : CG) : noUnsup s s := fun h => h

theorem noUnsup_trans {s p q : CG} (h1 : noUnsup s p) (h2 : noUnsup p q) :
    noUnsup s q := fun h => h1 (h2 h)

theorem emit_errors (i : Instr) (s : CG) : (emit i s).2.errors = s.errors := rfl

theorem setInsertPoint_errors (bid : Nat) (s : CG) :
    (setInsertPoint bid s).errors = s.errors := rfl

theorem pushBackBB_errors (bid : Nat) (s : CG) :
    (pushBackBB bid s).errors = s.errors := by
  unfold pushBackBB
  split <;> rfl

theorem emit_noUnsup (i : Instr) (s : CG) : noUnsup s (emit i s).2 := by
  intro h ; rwa [emit_errors] at h

theorem errorV_noUnsup (msg : String) (s : CG) (hne : "Error: " ++ msg ≠ unsupMsg) :
    noUnsup s (errorV msg s) := by
  intro h
  rcases List.mem_append.mp h with h1 | h2
  · exact h1
  · rw [List.mem_singleton] at h2
    exact absurd h2.symm hne

theorem ifAfterCond_errors (cv : Value) (s1 : CG) :
    (ifAfterCond cv s1).2.2.2.errors = s1.errors := by
  unfold ifAfterCond
  dsimp only
  rw [setInsertPoint_errors, pushBackBB_errors]
  rfl

theorem ifAfterThen_errors (doneB elseB : Nat) (s8 : CG) :
    (ifAfterThen doneB elseB s8).2.errors = s8.errors := by
  unfold ifAfterThen
  dsimp only
  rw [setInsertPoint_errors, pushBackBB_errors]
  rfl

theorem ifAfterElse_errors (doneB thenBB : Nat) (tv ev : Value) (s11 : CG) :
    (ifAfterElse doneB thenBB tv ev s11).2.errors = s11.errors := by
  unfold ifAfterElse
  dsimp only
  rw [emit_errors, setInsertPoint_errors, pushBackBB_errors]
  rfl

theorem ifAfterCond_noUnsup (cv : Value) (s1 : CG) :
    noUnsup s1 (ifAfterCond cv s1).2.2.2 := by
  intro h ; rwa [ifAfterCond_errors] at h

theorem ifAfterThen_noUnsup (doneB elseB : Nat) (s8 : CG) :
    noUnsup s8 (ifAfterThen doneB elseB s8).2 := by
  intro h ; rwa [ifAfterThen_errors] at h

theorem ifAfterElse_noUnsup (doneB thenBB : Nat) (tv ev : Value) (s11 : CG) :
    noUnsup s11 (ifAfterElse doneB thenBB tv ev s11).2 := by
  intro h ; rwa [ifAfterElse_errors] at h

/-- Lowering a `goodOps` tree can never take the unsupported-operator
branch: the only site that logs `unsupMsg` is the five-way dispatch's
default, and `goodOps` rules it out (induction over the tree size,
mirroring the frame theorem). -/
theorem codegenExpr_noUnsup :
    ∀ n : Nat,
      (∀ e : Expr ℚ, sizeOf e ≤ n → goodOps e → ∀ s : CG,
        noUnsup s (codegenExpr e s).2)
      ∧ (∀ args : List (Expr ℚ), (∀ a ∈ args, sizeOf a ≤ n) → goodOpsList args →
        ∀ s : CG, noUnsup s (codegenArgs args s).2) := by
  intro n
  induction n with
  | zero =>
      refine ⟨?_, ?_⟩
      · intro e he _ s
        exact absurd he (by cases e <;> simp_arith)
      · intro args hargs _ s
        cases args with
        | nil => exact noUnsup_refl s
        | cons a rest => exact absurd (hargs a (by simp)) (by cases a <;> simp_arith)
  | succ n ih =>
      obtain ⟨ihE, ihA⟩ := ih
      have exprPart : ∀ e : Expr ℚ, sizeOf e ≤ n + 1 → goodOps e → ∀ s : CG,
          noUnsup s (codegenExpr e s).2 := by
        intro e he hg s
        cases e with
        | num v => exact noUnsup_refl s
        | ident nm =>
            rw [codegenExpr]
            rcases hsy : symLookup s.symbols nm with _ | v
            · exact errorV_noUnsup _ s (by decide)
            · exact noUnsup_refl s
        | binary op l r =>
            obtain ⟨hop, hgl, hgr⟩ := hg
            have hsl : sizeOf l ≤ n := by
              have h := he ; simp only [Expr.binary.sizeOf_spec] at h ; omega
            have hsr : sizeOf r ≤ n := by
              have h := he ; simp only [Expr.binary.sizeOf_spec] at h ; omega
            rcases hle : codegenExpr l s with ⟨lv?, s1⟩
            have hfl : noUnsup s s1 := by
              have h := ihE l hsl hgl s ; rw [hle] at h ; exact h
            rcases hre : codegenExpr r s1 with ⟨rv?, s2⟩
            have hfr : noUnsup s1 s2 := by
              have h := ihE r hsr hgr s1 ; rw [hre] at h ; exact h
            have hbase : noUnsup s s2 := noUnsup_trans hfl hfr
            rw [codegenExpr, hle]
            dsimp only
            rw [hre]
            dsimp only
            cases lv? with
            | none => cases rv? <;> exact hbase
            | some lv =>
                cases rv? with
                | none => exact hbase
                | some rv =>
                    split_ifs with h1 h2 h3 h4 h5
                    · exact noUnsup_trans hbase (emit_noUnsup _ s2)
                    · exact noUnsup_trans hbase (emit_noUnsup _ s2)
                    · exact noUnsup_trans hbase (emit_noUnsup _ s2)
                    · exact noUnsup_trans hbase (emit_noUnsup _ s2)
                    · exact noUnsup_trans hbase
                        (noUnsup_trans (emit_noUnsup _ s2) (emit_noUnsup _ _))
                    · exact absurd hop (by fin_cases hop <;> simp_all)
        | call callee args =>
            rw [codegenExpr]
            rcases hfd : findFnByName callee s.module with _ | f
            · exact errorV_noUnsup _ s (by decide)
            · dsimp only
              split_ifs with harg
              · exact errorV_noUnsup _ s (by decide)
              · have hargs : ∀ a ∈ args, sizeOf a ≤ n := by
                  intro a ha
                  have hlt := List.sizeOf_lt_of_mem ha
                  have h := he ; simp only [Expr.call.sizeOf_spec] at h ; omega
                rcases hae : codegenArgs args s with ⟨vals?, s1⟩
                have hfa : noUnsup s s1 := by
                  have h := ihA args hargs hg s ; rw [hae] at h ; exact h
                cases vals? with
                | none => exact hfa
                | some vals => exact noUnsup_trans hfa (emit_noUnsup _ s1)
        | ifExpr c t e2 =>
            obtain ⟨hgc, hgt, hge⟩ := hg
            have hsc : sizeOf c ≤ n := by
              have h := he ; simp only [Expr.ifExpr.sizeOf_spec] at h ; omega
            have hst : sizeOf t ≤ n := by
              have h := he ; simp only [Expr.ifExpr.sizeOf_spec] at h ; omega
            have hse : sizeOf e2 ≤ n := by
              have h := he ; simp only [Expr.ifExpr.sizeOf_spec] at h ; omega
            rw [codegenExpr]
            split
            · rename_i s1 heq
              have h := ihE c hsc hgc s ; rw [heq] at h ; exact h
            · rename_i cv s1 heq
              have hfc : noUnsup s s1 := by
                have h := ihE c hsc hgc s ; rw [heq] at h ; exact h
              split
              rename_i b1 b2 b3 s7 heq7
              have hf7 : noUnsup s1 s7 := by
                have h := ifAfterCond_noUnsup cv s1 ; rw [heq7] at h ; exact h
              split
              · rename_i s8 heq2
                have h := ihE t hst hgt s7 ; rw [heq2] at h
                exact noUnsup_trans hfc (noUnsup_trans hf7 h)
              · rename_i tv s8 heq2
                have hft : noUnsup s7 s8 := by
                  have h := ihE t hst hgt s7 ; rw [heq2] at h ; exact h
                split
                rename_i thenRec s10 heq10
                have hf10 : noUnsup s8 s10 := by
                  have h := ifAfterThen_noUnsup b3 b2 s8 ; rw [heq10] at h ; exact h
                split
                · rename_i s11 heq3
                  have h := ihE e2 hse hge s10 ; rw [heq3] at h
                  exact noUnsup_trans hfc (noUnsup_trans hf7
                    (noUnsup_trans hft (noUnsup_trans hf10 h)))
                · rename_i ev s11 heq3
                  have hfe : noUnsup s10 s11 := by
                    have h := ihE e2 hse hge s10 ; rw [heq3] at h ; exact h
                  exact noUnsup_trans hfc (noUnsup_trans hf7
                    (noUnsup_trans hft (noUnsup_trans hf10
                      (noUnsup_trans hfe (ifAfterElse_noUnsup b3 thenRec tv ev s11)))))
      have argsPart : ∀ args : List (Expr ℚ), (∀ a ∈ args, sizeOf a ≤ n + 1) →
          goodOpsList args → ∀ s : CG, noUnsup s (codegenArgs args s).2 := by
        intro args
        induction args with
        | nil => intro _ _ s ; exact noUnsup_refl s
        | cons a rest ihrest =>
            intro hargs hg s
            obtain ⟨hga, hgrest⟩ := hg
            rw [codegenArgs]
            split
            · rename_i s1 heq
              have h := exprPart a (hargs a (by simp)) hga s ; rw [heq] at h ; exact h
            · rename_i v s1 heq
              have hfa : noUnsup s s1 := by
                have h := exprPart a (hargs a (by simp)) hga s ; rw [heq] at h ; exact h
              split
              · rename_i s2 heq2
                have h := ihrest (fun x hx => hargs x (by simp [hx])) hgrest s1
                rw [heq2] at h
                exact noUnsup_trans hfa h
              · rename_i vs s2 heq2
                have h := ihrest (fun x hx => hargs x (by simp [hx])) hgrest s1
                rw [heq2] at h
                exact noUnsup_trans hfa h
      exact ⟨exprPart, argsPart⟩

/-- C10 [confirmed]: every tree the expression parser returns satisfies
`goodOps` — the operator of every `Binary` node is one of `'<' '+' '-'
'*' '/'`, because `ParseBinOpRHS` only folds tokens whose
precedence-table entry is positive — and lowering a `goodOps` tree can
never reach the unsupported-operator branch of
`BinaryExprNode::Codegen`. -/
theorem C10_parser_ops_supported :
    (∀ (fuel : Nat) (ps : PState ℚ) (e : Expr ℚ) (ps' : PState ℚ),
        parseExpression fuel ps = some (some e, ps') → goodOps e)
    ∧ (∀ e : Expr ℚ, goodOps e → ∀ s : CG,
        unsupMsg ∉ s.errors → unsupMsg ∉ (codegenExpr e s).2.errors) := by
  refine ⟨?_, ?_⟩
  · intro fuel ps e ps' h
    exact (parseGood fuel).2.2.2.2 ps e ps' h
  · intro e hg s hs hmem
    exact hs ((codegenExpr_noUnsup (sizeOf e)).1 e (Nat.le_refl _) hg s hmem)

theorem C10_witness :
    goodOps (Expr.binary '*' (Expr.num (1:ℚ)) (Expr.num 2))
    ∧ unsupMsg ∉
        (codegenExpr (Expr.binary '*' (Expr.num (1:ℚ)) (Expr.num 2)) initCG).2.errors := by
  have h1 := C10_parser_ops_supported.1 8
    ⟨[Tok.num (1:ℚ), Tok.punct '*', Tok.num 2, Tok.eof], []⟩
    (Expr.binary '*' (.num 1) (.num 2)) ⟨[Tok.eof], []⟩ rfl
  exact ⟨h1, C10_parser_ops_supported.2 _ h1 initCG (by simp [initCG])⟩

end Kaleidoscope
